import Mathlib

/-!
Shallow embedding of the medical knowledge-graph pipeline
(`data/kg_builder.py`, `src/utils/nlp_utils.py`, `src/models/qa_model.py`).

Python dict records become Lean structures with `Option` fields where the
source accesses keys through `dict.get`; insertion-ordered Python dicts
become association lists (`List (κ × α)`) with in-place update and append
on fresh keys, which is exactly the observable behaviour of CPython dicts.
Python floats are modelled as rationals (`ℚ`); all comparisons in the
source are order comparisons preserved by this embedding.
-/

set_option maxHeartbeats 1000000

namespace MedKG

/-! ### Decimal rendering of Python ints

The source interpolates integer ids into f-strings, e.g.
`f"{entity['type']}_{entity['id']}"`. We model `str(n)` for a natural
number by `natDec`, a fuel-based (hence kernel-computable) base-10
renderer. -/

/-- Little-endian decimal digits of `n`, with explicit fuel so the
definition is structurally recursive. `natDigsAux f n` is the digit list
of `n` whenever `n ≤ f`. -/
def natDigsAux : Nat → Nat → List Char
  | 0, _ => []
  | fuel + 1, n => if n = 0 then [] else Nat.digitChar (n % 10) :: natDigsAux fuel (n / 10)

/-- Decimal string of a natural number, modelling Python `str(n)` for the
non-negative ints produced by the pipeline. -/
def natDec (n : Nat) : String :=
  if n = 0 then "0" else ⟨(natDigsAux n n).reverse⟩

/-! ### Insertion-ordered dictionaries as association lists -/

/-- Lookup of the value stored at key `q`, modelling `d[q]` / `q in d`. -/
def lookupA {κ α : Type} [DecidableEq κ] (q : κ) : List (κ × α) → Option α
  | [] => none
  | (k, v) :: rest => if q = k then some v else lookupA q rest

/-- Replace the value stored at key `q` in place (position preserved),
modelling `d[q] = w` for a key already present. -/
def updateA {κ α : Type} [DecidableEq κ] (q : κ) (w : α) : List (κ × α) → List (κ × α)
  | [] => []
  | (k, v) :: rest => if q = k then (k, w) :: rest else (k, v) :: updateA q w rest

/-- Python dict assignment `d[q] = w`: update in place when the key is
present, append at the end otherwise. -/
def upsertA {κ α : Type} [DecidableEq κ] (q : κ) (w : α) (m : List (κ × α)) : List (κ × α) :=
  if (lookupA q m).isSome then updateA q w m else m ++ [(q, w)]

/-- Keys of an association list, in storage order. -/
def keysA {κ α : Type} (m : List (κ × α)) : List κ := m.map (·.1)

/-! ### Substring test

Python `needle in hay` on strings is contiguous-substring containment.
We model it executably on character lists. -/

/-- Executable test that `p` is a prefix of `l`. -/
def isPref : List Char → List Char → Bool
  | [], _ => true
  | _ :: _, [] => false
  | a :: as, b :: bs => a = b && isPref as bs

/-- Executable test that `needle` occurs contiguously inside `hay`,
modelling Python `needle in hay`. -/
def containsSub (hay needle : List Char) : Bool :=
  match hay with
  | [] => needle.isEmpty
  | _ :: t => isPref needle hay || containsSub t needle

/-- Character content of Python `s.lower()`: characterwise lowercasing.
On the ASCII and CJK text handled by this pipeline this agrees with
CPython's full case folding. -/
def lowerData (s : String) : List Char :=
  s.data.map Char.toLower

/-! ### Data model (`kg_builder.py`) -/

/-- An entity record as it flows through `KnowledgeGraphBuilder`: a dict
with required `type`, `name`, `source_doc`; `description` and `id` may be
absent; the free-form `attributes` map is opaque to the pipeline and
modelled by its serialized string. -/
structure EntityMention where
  type : String
  name : String
  source_doc : String
  description : Option String
  id : Option Nat
  attributes : String
  deriving DecidableEq

/-- A relation record as produced by `extract_relations_from_text`:
`source_id`/`target_id` and the type/name fields are always present,
`description` and `confidence` are read through `dict.get`. -/
structure RelationMention where
  source_id : Nat
  source_type : String
  source_name : String
  target_id : Nat
  target_type : String
  target_name : String
  relation_type : String
  description : Option String
  confidence : Option ℚ
  deriving DecidableEq

/-- Dedup key of `_deduplicate_entities`:
`f"{entity['type']}:{entity['name']}"`. -/
def entKey (e : EntityMention) : String :=
  e.type ++ ":" ++ e.name

/-- Dedup key of `_deduplicate_relations`:
`f"{source_type}:{source_id}:{target_type}:{target_id}:{relation_type}"`. -/
def relKey (r : RelationMention) : String :=
  r.source_type ++ ":" ++ natDec r.source_id ++ ":" ++ r.target_type ++ ":" ++
    natDec r.target_id ++ ":" ++ r.relation_type

/-- Python truthiness of the `description` field:
`'description' in entity and entity['description']`. -/
def descTruthy (e : EntityMention) : Bool :=
  match e.description with
  | none => false
  | some s => s ≠ ""

/-- Confidence as read by `_deduplicate_relations`:
`relation.get('confidence', 0)`. -/
def cf (r : RelationMention) : ℚ :=
  r.confidence.getD 0

/-- Body of the loop of `_deduplicate_entities`: on a fresh key the entity
is stored with `id = len(unique_entities)`; on a collision only an empty
or missing description of the canonical entry is backfilled. -/
def entDedupStep (acc : List (String × EntityMention)) (e : EntityMention) :
    List (String × EntityMention) :=
  match lookupA (entKey e) acc with
  | none => acc ++ [(entKey e, { e with id := some acc.length })]
  | some cur =>
    if descTruthy e ∧ ¬descTruthy cur then
      updateA (entKey e) { cur with description := e.description } acc
    else acc

/-- `KnowledgeGraphBuilder._deduplicate_entities`. -/
def deduplicate_entities (entities : List EntityMention) : List EntityMention :=
  (entities.foldl entDedupStep []).map (·.2)

/-- Body of the loop of `_deduplicate_relations`: keep the stored relation
unless the new occurrence has strictly higher confidence. -/
def relDedupStep (acc : List (String × RelationMention)) (r : RelationMention) :
    List (String × RelationMention) :=
  match lookupA (relKey r) acc with
  | none => acc ++ [(relKey r, r)]
  | some cur => if cf cur < cf r then updateA (relKey r) r acc else acc

/-- `KnowledgeGraphBuilder._deduplicate_relations`. -/
def deduplicate_relations (relations : List RelationMention) : List RelationMention :=
  (relations.foldl relDedupStep []).map (·.2)

/-! ### Graph assembly (`build_graph`) -/

/-- Node attributes stored by `build_graph` via `add_node`. -/
structure NodeData where
  id : String
  name : String
  type : String
  source_doc : String
  description : String
  attributes : String
  deriving DecidableEq

/-- Edge attributes stored by `build_graph` via `add_edge`. -/
structure EdgeData where
  type : String
  confidence : ℚ
  description : String
  deriving DecidableEq

/-- A `networkx.DiGraph` as observed by the pipeline: insertion-ordered
nodes keyed by string, and insertion-ordered edges keyed by the
(source, target) pair — a repeated `add_edge` on the same pair overwrites
the stored attributes, it does not add a parallel edge. -/
structure Graph where
  nodes : List (String × NodeData)
  edges : List ((String × String) × EdgeData)
  deriving DecidableEq

/-- `DiGraph.add_node` with attribute overwrite semantics. -/
def addNode (g : Graph) (k : String) (d : NodeData) : Graph :=
  { g with nodes := upsertA k d g.nodes }

/-- `DiGraph.add_edge` restricted to endpoints already present (the only
way `build_graph` calls it): overwrites the attributes of an existing
(source, target) edge. -/
def addEdge (g : Graph) (p : String × String) (d : EdgeData) : Graph :=
  { g with edges := upsertA p d g.edges }

/-- Node key `f"{entity['type']}_{entity['id']}"`. Deduplicated entities
always carry an id; Python would raise `KeyError` on a missing one, the
`getD 0` branch is unreachable in the pipeline. -/
def entNodeKey (e : EntityMention) : String :=
  e.type ++ "_" ++ natDec (e.id.getD 0)

/-- Source node key `f"{relation['source_type']}_{relation['source_id']}"`. -/
def relSrcKey (r : RelationMention) : String :=
  r.source_type ++ "_" ++ natDec r.source_id

/-- Target node key `f"{relation['target_type']}_{relation['target_id']}"`. -/
def relTgtKey (r : RelationMention) : String :=
  r.target_type ++ "_" ++ natDec r.target_id

/-- Node-adding phase of `build_graph`. -/
def addEntityNode (g : Graph) (e : EntityMention) : Graph :=
  addNode g (entNodeKey e)
    { id := entNodeKey e
      name := e.name
      type := e.type
      source_doc := e.source_doc
      description := e.description.getD ""
      attributes := e.attributes }

/-- Edge-adding phase of `build_graph`: a relation whose source or target
key is absent from the node set is skipped silently. -/
def addRelationEdge (g : Graph) (r : RelationMention) : Graph :=
  if (lookupA (relSrcKey r) g.nodes).isSome ∧ (lookupA (relTgtKey r) g.nodes).isSome then
    addEdge g (relSrcKey r, relTgtKey r)
      { type := r.relation_type
        confidence := r.confidence.getD 0.8
        description := r.description.getD "" }
  else g

/-- `KnowledgeGraphBuilder.build_graph`: start from a fresh empty DiGraph,
add one node per entity, then one edge per relation whose endpoints exist. -/
def build_graph (entities : List EntityMention) (relations : List RelationMention) : Graph :=
  let g := entities.foldl addEntityNode ⟨[], []⟩
  relations.foldl addRelationEdge g

/-! ### Relation extraction (`nlp_utils.py`) -/

/-- An entity as seen by `extract_medical_relations`: a dict that may be
missing `name` or `type` (both guarded against). -/
structure MEntity where
  name : Option String
  type : Option String
  deriving DecidableEq

/-- One relation object of the generation-service response: `type` may be
absent (skipped), `confidence` may be absent (defaulted to 1.0). -/
structure RelResp where
  type : Option String
  description : Option String
  confidence : Option ℚ
  deriving DecidableEq

/-- Shape of `api_client.generate_json` results as discriminated by
`extract_medical_relations`: a JSON array, a dict carrying a `relations`
key, or anything else (including a falsy response). -/
inductive ApiResponse where
  | arr : List RelResp → ApiResponse
  | withRelations : List RelResp → ApiResponse
  | other : ApiResponse
  deriving DecidableEq

/-- Predefined type-pair table `relation_type_map` of
`extract_medical_relations`. -/
def relation_type_map : List ((String × String) × List String) :=
  [ (("疾病", "症状"), ["相关症状", "表现为"])
  , (("疾病", "药物"), ["治疗药物", "可用药物"])
  , (("疾病", "检查项目"), ["诊断方法", "检查手段"])
  , (("疾病", "并发症"), ["导致", "引起"])
  , (("疾病", "疾病"), ["相关疾病", "并发症"])
  , (("药物", "疾病"), ["治疗", "预防"])
  , (("治疗方法", "疾病"), ["治疗", "适用于"])
  , (("病因", "疾病"), ["导致", "引起"])
  , (("疾病", "解剖部位"), ["影响", "发生于"])
  , (("药物", "解剖部位"), ["作用于", "影响"]) ]

/-- Source/target swap of `extract_medical_relations`: when only the
reversed type pair is listed in `relation_type_map`, source and target are
exchanged (names and type labels together). Returns
`(source_name, source_type, target_name, target_type)` after the check. -/
def swapByMap (sn st tn tt : String) : String × String × String × String :=
  if ((lookupA (st, tt) relation_type_map).getD []).isEmpty then
    if ((lookupA (tt, st) relation_type_map).getD []).isEmpty then
      (sn, st, tn, tt)
    else
      (tn, tt, sn, st)
  else
    (sn, st, tn, tt)

/-- `_check_predefined_relations`, on the (possibly swapped) source and
target name/type fields. -/
def checkPredefined (sn st tn tt : String) : List RelResp :=
  if sn = "糖尿病" ∧ tt = "症状" ∧ tn ∈ ["多饮", "多食", "多尿", "体重减轻"] then
    [⟨some "相关症状", some ("糖尿病的典型症状包括" ++ tn), some 1⟩]
  else if st = "药物" ∧ tn = "糖尿病" ∧ sn ∈ ["胰岛素", "二甲双胍"] then
    [⟨some "治疗", some (sn ++ "用于治疗糖尿病"), some 1⟩]
  else if sn = "糖尿病" ∧ tt = "并发症" ∧ containsSub tn.data "糖尿病".data then
    [⟨some "导致", some ("糖尿病可能导致" ++ tn), some 1⟩]
  else []

/-- Relation list extracted from the response shape: a list is used as is,
a dict with a `relations` key contributes that list, anything else counts
as no relation found. -/
def respRelations : ApiResponse → List RelResp
  | .arr l => l
  | .withRelations l => l
  | .other => []

/-- Filter body of `extract_medical_relations`: drop objects without a
`type`, default a missing `confidence` to 1.0, then drop confidences
below 0.6. -/
def validRel (r : RelResp) : Option RelResp :=
  if r.type.isSome then
    if r.confidence.getD 1 < 0.6 then none
    else some { r with confidence := some (r.confidence.getD 1) }
  else none

/-- `extract_medical_relations source_entity target_entity response`:
guards on missing `name`/`type`, applies the type-pair swap, short-cuts
through `_check_predefined_relations`, and otherwise filters the
generation-service response. The `response` argument stands for the value
`api_client.generate_json` would return; the output on a short-cut hit
does not depend on it. -/
def extract_medical_relations (src tgt : MEntity) (resp : ApiResponse) : List RelResp :=
  match src.name, tgt.name with
  | some sn, some tn =>
    match src.type, tgt.type with
    | some st, some tt =>
      if (checkPredefined (swapByMap sn st tn tt).1 (swapByMap sn st tn tt).2.1
          (swapByMap sn st tn tt).2.2.1 (swapByMap sn st tn tt).2.2.2).isEmpty then
        (respRelations resp).filterMap validRel
      else
        checkPredefined (swapByMap sn st tn tt).1 (swapByMap sn st tn tt).2.1
          (swapByMap sn st tn tt).2.2.1 (swapByMap sn st tn tt).2.2.2
    | _, _ => []
  | _, _ => []

/-! ### QA retrieval (`qa_model.py`) -/

/-- A question entity produced by `_analyze_question`: a JSON object whose
`name` and `type` keys may be absent, read through `dict.get(_, "")`. -/
structure QEntity where
  name : Option String
  type : Option String
  deriving DecidableEq

/-- Node-match predicate of `_retrieve_kg_information`:
`entity_name.lower() in node_name.lower() and (not entity_type or entity_type == node_type)`. -/
def matchNodeB (entity_name entity_type : String) (nd : NodeData) : Bool :=
  containsSub (lowerData nd.name) (lowerData entity_name) &&
    (entity_type = "" || entity_type = nd.type)

/-- Graph nodes matching a question entity, in node storage order. -/
def matchedNodes (g : Graph) (qe : QEntity) : List (String × NodeData) :=
  g.nodes.filter (fun kv => matchNodeB (qe.name.getD "") (qe.type.getD "") kv.2)

/-- `self.graph.edges([node_id], data=True)`: the edges leaving `k`, in
storage order. For a directed graph networkx yields the out-edges only. -/
def outEdges (g : Graph) (k : String) : List ((String × String) × EdgeData) :=
  g.edges.filter (fun pe => pe.1.1 = k)

/-- Hint filter on one edge:
`not question_relations or edge_type in question_relations`. -/
def keepEdge (hints : List String) (d : EdgeData) : Bool :=
  hints.isEmpty || hints.contains d.type

/-- One retrieved-relation record as assembled by
`_retrieve_kg_information`. -/
structure RetRelation where
  source : String
  target : String
  source_name : String
  target_name : String
  type : String
  confidence : ℚ
  description : String
  deriving DecidableEq

/-- Stored name of a node, `self.graph.nodes[k].get("name", "")`. -/
def nodeName (g : Graph) (k : String) : String :=
  ((lookupA k g.nodes).map (·.name)).getD ""

/-- Retrieved-relation record built from one kept edge. -/
def relForEdge (g : Graph) (pe : (String × String) × EdgeData) : RetRelation :=
  { source := pe.1.1
    target := pe.1.2
    source_name := nodeName g pe.1.1
    target_name := nodeName g pe.1.2
    type := pe.2.type
    confidence := pe.2.confidence
    description := pe.2.description }

/-- `MedicalQAModel._retrieve_kg_information`: for each question entity,
every matching node contributes its record to the retrieved entities and
its hint-filtered outgoing edges to the retrieved relations, preserving
the nested-loop append order of the source. -/
def retrieve_kg_information (g : Graph) (qes : List QEntity) (hints : List String) :
    List NodeData × List RetRelation :=
  (qes.flatMap (fun qe => (matchedNodes g qe).map (·.2)),
   qes.flatMap (fun qe =>
     (matchedNodes g qe).flatMap (fun kv =>
       ((outEdges g kv.1).filter (fun pe => keepEdge hints pe.2)).map (relForEdge g))))

/-! ### Derived values used in theorem statements -/

/-- Edge attributes `build_graph` stores for a relation. -/
def edgeDataOf (r : RelationMention) : EdgeData :=
  { type := r.relation_type
    confidence := r.confidence.getD 0.8
    description := r.description.getD "" }

/-- Admission test of the edge phase of `build_graph` against a fixed node
table, together with the (source, target) key pair. -/
def admitsEdge (nodes : List (String × NodeData)) (q : String × String)
    (r : RelationMention) : Bool :=
  decide ((relSrcKey r, relTgtKey r) = q) &&
    (lookupA (relSrcKey r) nodes).isSome && (lookupA (relTgtKey r) nodes).isSome

/-- Description retained by `_deduplicate_entities` for one collision
group: the description of the first occurrence carrying a non-empty one,
or the default when no occurrence does. -/
def firstTruthyDesc (group : List EntityMention) (dflt : Option String) : Option String :=
  match group.filter descTruthy with
  | [] => dflt
  | d :: _ => d.description

/-- Effect of later colliding occurrences on a stored canonical entity:
fold of the description-backfill branch of `_deduplicate_entities`. -/
def entBackfill (v : EntityMention) (g : List EntityMention) : EntityMention :=
  g.foldl
    (fun v e =>
      if descTruthy e ∧ ¬descTruthy v then { v with description := e.description } else v) v

/-- Effect of colliding occurrences on the stored canonical relation:
fold of the keep-highest-confidence branch of `_deduplicate_relations`. -/
def relCombine (o : Option RelationMention) (g : List RelationMention) :
    Option RelationMention :=
  g.foldl
    (fun o r =>
      match o with
      | none => some r
      | some c => if cf c < cf r then some r else some c) o

/-! ## Lemmas about the dictionary model -/

theorem lookupA_append {κ α : Type} [DecidableEq κ] (q : κ) (m₁ m₂ : List (κ × α)) :
    lookupA q (m₁ ++ m₂) =
      match lookupA q m₁ with
      | some v => some v
      | none => lookupA q m₂ := by
  induction m₁ with
  | nil => simp [lookupA]
  | cons p rest ih =>
    obtain ⟨k, v⟩ := p
    by_cases h : q = k <;> simp [lookupA, h, ih]

theorem lookupA_eq_none_iff {κ α : Type} [DecidableEq κ] (q : κ) (m : List (κ × α)) :
    lookupA q m = none ↔ q ∉ keysA m := by
  induction m with
  | nil => simp [lookupA, keysA]
  | cons p rest ih =>
    obtain ⟨k, v⟩ := p
    by_cases h : q = k <;> simp [lookupA, keysA, h, ih]

theorem lookupA_isSome_iff {κ α : Type} [DecidableEq κ] (q : κ) (m : List (κ × α)) :
    (lookupA q m).isSome = true ↔ q ∈ keysA m := by
  rw [Option.isSome_iff_ne_none, ne_eq, lookupA_eq_none_iff, not_not]

theorem keysA_updateA {κ α : Type} [DecidableEq κ] (q : κ) (w : α) (m : List (κ × α)) :
    keysA (updateA q w m) = keysA m := by
  induction m with
  | nil => simp [updateA]
  | cons p rest ih =>
    obtain ⟨k, v⟩ := p
    by_cases h : q = k
    · simp [updateA, keysA, h]
    · simp only [updateA, if_neg h, keysA, List.map_cons]
      simpa [keysA] using ih

theorem length_updateA {κ α : Type} [DecidableEq κ] (q : κ) (w : α) (m : List (κ × α)) :
    (updateA q w m).length = m.length := by
  have := keysA_updateA q w m
  simpa [keysA] using congrArg List.length this

theorem lookupA_updateA_self {κ α : Type} [DecidableEq κ] (q : κ) (w : α) (m : List (κ × α))
    (h : q ∈ keysA m) : lookupA q (updateA q w m) = some w := by
  induction m with
  | nil => simp [keysA] at h
  | cons p rest ih =>
    obtain ⟨k, v⟩ := p
    by_cases hk : q = k
    · simp [updateA, lookupA, hk]
    · simp [keysA, hk] at h
      simp [updateA, lookupA, hk, ih (by simpa [keysA] using h)]

theorem lookupA_updateA_ne {κ α : Type} [DecidableEq κ] {q p : κ} (w : α) (m : List (κ × α))
    (h : p ≠ q) : lookupA p (updateA q w m) = lookupA p m := by
  induction m with
  | nil => simp [updateA]
  | cons e rest ih =>
    obtain ⟨k, v⟩ := e
    by_cases hk : q = k
    · subst hk
      simp [updateA, lookupA, h]
    · by_cases hp : p = k <;> simp [updateA, lookupA, hk, hp, ih]

theorem mem_updateA {κ α : Type} [DecidableEq κ] {q : κ} {w : α} {m : List (κ × α)}
    {x : κ × α} (h : x ∈ updateA q w m) : x = (q, w) ∨ x ∈ m := by
  induction m with
  | nil => simp [updateA] at h
  | cons e rest ih =>
    obtain ⟨k, v⟩ := e
    by_cases hk : q = k
    · subst hk
      simp [updateA] at h
      rcases h with h | h
      · left; simp [h]
      · right; simp [h]
    · simp [updateA, hk] at h
      rcases h with h | h
      · right; simp [h]
      · rcases ih h with h | h
        · left; exact h
        · right; simp [h]

theorem mem_upsertA {κ α : Type} [DecidableEq κ] {q : κ} {w : α} {m : List (κ × α)}
    {x : κ × α} (h : x ∈ upsertA q w m) : x = (q, w) ∨ x ∈ m := by
  unfold upsertA at h
  split at h
  · exact mem_updateA h
  · simp at h
    rcases h with h | h
    · right; exact h
    · left; simp [h]

theorem keysA_upsertA {κ α : Type} [DecidableEq κ] (q : κ) (w : α) (m : List (κ × α)) :
    keysA (upsertA q w m) = if q ∈ keysA m then keysA m else keysA m ++ [q] := by
  unfold upsertA
  by_cases h : q ∈ keysA m
  · rw [if_pos ((lookupA_isSome_iff q m).mpr h), keysA_updateA, if_pos h]
  · rw [if_neg, if_neg h]
    · simp [keysA]
    · intro hs
      exact h ((lookupA_isSome_iff q m).mp hs)

theorem keysA_upsertA_nodup {κ α : Type} [DecidableEq κ] (q : κ) (w : α) (m : List (κ × α))
    (h : (keysA m).Nodup) : (keysA (upsertA q w m)).Nodup := by
  rw [keysA_upsertA]
  split
  · exact h
  · simpa [List.nodup_append] using ⟨h, by assumption⟩

theorem lookupA_upsertA_self {κ α : Type} [DecidableEq κ] (q : κ) (w : α) (m : List (κ × α)) :
    lookupA q (upsertA q w m) = some w := by
  unfold upsertA
  split
  · exact lookupA_updateA_self q w m ((lookupA_isSome_iff q m).mp (by assumption))
  · rw [lookupA_append]
    have : lookupA q m = none := by
      cases h : lookupA q m
      · rfl
      · simp_all
    simp [this, lookupA]

theorem lookupA_upsertA_ne {κ α : Type} [DecidableEq κ] {q p : κ} (w : α) (m : List (κ × α))
    (h : p ≠ q) : lookupA p (upsertA q w m) = lookupA p m := by
  unfold upsertA
  split
  · exact lookupA_updateA_ne w m h
  · rw [lookupA_append]
    cases hm : lookupA p m <;> simp [hm, lookupA, h]

/-- In a key-consistent association list with no duplicate keys, filtering
the stored values on their key yields exactly the looked-up value. -/
theorem filter_values_eq_lookupA {α : Type} (f : α → String) (m : List (String × α))
    (hcons : ∀ p ∈ m, f p.2 = p.1) (hnd : (keysA m).Nodup) (q : String) :
    (m.map (·.2)).filter (fun v => decide (f v = q)) = (lookupA q m).toList := by
  induction m with
  | nil => simp [lookupA]
  | cons p rest ih =>
    obtain ⟨k, v⟩ := p
    have hv : f v = k := hcons (k, v) (by simp)
    have hndc : k ∉ keysA rest ∧ (keysA rest).Nodup :=
      List.nodup_cons.mp (show (k :: keysA rest).Nodup from hnd)
    have hcons' : ∀ p ∈ rest, f p.2 = p.1 := fun p hp => hcons p (by simp [hp])
    by_cases hq : q = k
    · subst hq
      have hrest : (rest.map (·.2)).filter (fun v => decide (f v = q)) = [] := by
        rw [List.filter_eq_nil_iff]
        intro x hx
        simp only [List.mem_map] at hx
        obtain ⟨p, hp, rfl⟩ := hx
        simp only [decide_eq_true_eq]
        rw [hcons' p hp]
        intro hfx
        exact hndc.1 (hfx ▸ List.mem_map_of_mem (·.1) hp)
      simp [lookupA, hv, hrest]
    · have hne : ¬ (f v = q) := by rw [hv]; exact fun h => hq h.symm
      simp [lookupA, hq, hne, ih hcons' hndc.2]

/-! ## Lemmas about the substring test -/

theorem isPref_iff (p l : List Char) : isPref p l = true ↔ ∃ s, l = p ++ s := by
  induction p generalizing l with
  | nil => simp [isPref]
  | cons a as ih =>
    cases l with
    | nil =>
      simp only [isPref]
      constructor
      · intro h; cases h
      · rintro ⟨s, hs⟩; cases hs
    | cons b bs =>
      simp only [isPref, Bool.and_eq_true, decide_eq_true_eq, ih, List.cons_append, List.cons.injEq]
      constructor
      · rintro ⟨rfl, s, rfl⟩; exact ⟨s, rfl, rfl⟩
      · rintro ⟨s, rfl, rfl⟩; exact ⟨rfl, s, rfl⟩

theorem containsSub_iff (hay needle : List Char) :
    containsSub hay needle = true ↔ ∃ p s, hay = p ++ needle ++ s := by
  induction hay with
  | nil =>
    simp only [containsSub, List.isEmpty_iff]
    constructor
    · rintro rfl; exact ⟨[], [], rfl⟩
    · rintro ⟨p, s, hp⟩
      have hlen := congrArg List.length hp
      simp only [List.length_nil, List.length_append] at hlen
      have : needle.length = 0 := by omega
      exact List.length_eq_zero.mp this
  | cons a t ih =>
    simp only [containsSub, Bool.or_eq_true, isPref_iff, ih]
    constructor
    · rintro (⟨s, hs⟩ | ⟨p, s, rfl⟩)
      · exact ⟨[], s, by simp [hs]⟩
      · exact ⟨a :: p, s, by simp⟩
    · rintro ⟨p, s, hp⟩
      cases p with
      | nil => exact Or.inl ⟨s, by simpa using hp⟩
      | cons x xs =>
        simp only [List.cons_append, List.cons.injEq] at hp
        exact Or.inr ⟨xs, s, hp.2⟩

theorem containsSub_nil_needle (hay : List Char) : containsSub hay [] = true := by
  cases hay <;> simp [containsSub, isPref]

/-! ## Lemmas about decimal rendering -/

theorem natDigsAux_zero (f : Nat) : natDigsAux f 0 = [] := by
  cases f <;> simp [natDigsAux]

theorem natDigsAux_congr (f₁ : Nat) : ∀ f₂ n, n ≤ f₁ → n ≤ f₂ →
    natDigsAux f₁ n = natDigsAux f₂ n := by
  induction f₁ with
  | zero =>
    intro f₂ n h1 _
    have hn : n = 0 := by omega
    subst hn
    simp [natDigsAux_zero, natDigsAux]
  | succ f ih =>
    intro f₂ n h1 h2
    by_cases hn : n = 0
    · subst hn
      simp [natDigsAux_zero]
    · cases f₂ with
      | zero => omega
      | succ g =>
        have hdiv : n / 10 < n := Nat.div_lt_self (Nat.pos_of_ne_zero hn) (by omega)
        simp only [natDigsAux, if_neg hn]
        rw [ih g (n / 10) (by omega) (by omega)]

theorem digitChar_lt10_ne_colon : ∀ d < 10, Nat.digitChar d ≠ ':' := by decide

theorem digitChar_lt10_inj : ∀ d < 10, ∀ e < 10, Nat.digitChar d = Nat.digitChar e → d = e := by
  decide

theorem mem_natDigsAux (f : Nat) : ∀ n c, c ∈ natDigsAux f n →
    ∃ d, d < 10 ∧ c = Nat.digitChar d := by
  induction f with
  | zero => intro n c h; simp [natDigsAux] at h
  | succ f ih =>
    intro n c h
    by_cases hn : n = 0
    · simp [natDigsAux, hn] at h
    · simp only [natDigsAux, if_neg hn, List.mem_cons] at h
      rcases h with rfl | h
      · exact ⟨n % 10, Nat.mod_lt _ (by omega), rfl⟩
      · exact ih _ c h

theorem natDec_no_colon (n : Nat) : ':' ∉ (natDec n).data := by
  unfold natDec
  split
  · decide
  · intro hmem
    have hmem' : ':' ∈ natDigsAux n n := by
      simpa using (List.mem_reverse).mp hmem
    obtain ⟨d, hd, hc⟩ := mem_natDigsAux n n ':' hmem'
    exact digitChar_lt10_ne_colon d hd hc.symm

theorem natDigsAux_eq_nil_iff (f n : Nat) (h : n ≤ f) : natDigsAux f n = [] ↔ n = 0 := by
  cases f with
  | zero => simp [natDigsAux]; omega
  | succ f => by_cases hn : n = 0 <;> simp [natDigsAux, hn]

theorem natDigsAux_inj (f₁ : Nat) : ∀ f₂ n m, n ≤ f₁ → m ≤ f₂ →
    natDigsAux f₁ n = natDigsAux f₂ m → n = m := by
  induction f₁ with
  | zero =>
    intro f₂ n m h1 h2 heq
    have hn : n = 0 := by omega
    subst hn
    have : natDigsAux f₂ m = [] := by rw [← heq]; rfl
    have := (natDigsAux_eq_nil_iff f₂ m h2).mp this
    omega
  | succ f ih =>
    intro f₂ n m h1 h2 heq
    by_cases hn : n = 0
    · subst hn
      rw [natDigsAux_zero] at heq
      have := (natDigsAux_eq_nil_iff f₂ m h2).mp heq.symm
      omega
    · by_cases hm : m = 0
      · subst hm
        rw [natDigsAux_zero] at heq
        simp [natDigsAux, hn] at heq
      · cases f₂ with
        | zero => omega
        | succ g =>
          simp only [natDigsAux, if_neg hn, if_neg hm, List.cons.injEq] at heq
          have hmod : n % 10 = m % 10 :=
            digitChar_lt10_inj _ (Nat.mod_lt _ (by omega)) _ (Nat.mod_lt _ (by omega)) heq.1
          have hdivn : n / 10 < n := Nat.div_lt_self (Nat.pos_of_ne_zero hn) (by omega)
          have hdivm : m / 10 < m := Nat.div_lt_self (Nat.pos_of_ne_zero hm) (by omega)
          have hdiv : n / 10 = m / 10 := ih g (n / 10) (m / 10) (by omega) (by omega) heq.2
          have e1 := Nat.div_add_mod n 10
          have e2 := Nat.div_add_mod m 10
          omega

theorem natDec_inj {n m : Nat} (h : natDec n = natDec m) : n = m := by
  unfold natDec at h
  have single : ∀ k : Nat, k ≠ 0 → (natDigsAux k k).reverse = ['0'] → False := by
    intro k hk hrev
    have hl : natDigsAux k k = ['0'] := by
      have := congrArg List.reverse hrev
      simpa using this
    cases k with
    | zero => exact hk rfl
    | succ j =>
      simp only [natDigsAux, if_neg hk, List.cons.injEq] at hl
      have hj : (j + 1) / 10 = 0 :=
        (natDigsAux_eq_nil_iff j ((j + 1) / 10)
          (by
            have : (j + 1) / 10 < j + 1 := Nat.div_lt_self (by omega) (by omega)
            omega)).mp hl.2
      have hmod : (j + 1) % 10 = 0 := by
        have h0 : Nat.digitChar ((j + 1) % 10) = Nat.digitChar 0 := hl.1
        exact digitChar_lt10_inj _ (Nat.mod_lt _ (by omega)) 0 (by omega) h0
      have := Nat.div_add_mod (j + 1) 10
      omega
  by_cases hn : n = 0 <;> by_cases hm : m = 0
  · omega
  · rw [if_pos hn, if_neg hm] at h
    exfalso
    apply single m hm
    have hd := congrArg String.data h
    simpa using hd.symm
  · rw [if_neg hn, if_pos hm] at h
    exfalso
    apply single n hn
    have hd := congrArg String.data h
    simpa using hd
  · rw [if_neg hn, if_neg hm] at h
    have hd : (natDigsAux n n).reverse = (natDigsAux m m).reverse := congrArg String.data h
    have : natDigsAux n n = natDigsAux m m := by
      have := congrArg List.reverse hd
      simpa using this
    exact natDigsAux_inj n m n m le_rfl le_rfl this

/-! ## Injectivity of the joined dedup keys away from the separator -/

theorem colon_split {t₁ n₁ : List Char} : ∀ {t₂ n₂ : List Char}, ':' ∉ t₁ → ':' ∉ t₂ →
    t₁ ++ ':' :: n₁ = t₂ ++ ':' :: n₂ → t₁ = t₂ ∧ n₁ = n₂ := by
  induction t₁ with
  | nil =>
    intro t₂ n₂ _ h2 heq
    cases t₂ with
    | nil => simpa using heq
    | cons b bs =>
      simp only [List.nil_append, List.cons_append, List.cons.injEq] at heq
      obtain ⟨hb, _⟩ := heq
      subst hb
      simp at h2
  | cons a as ih =>
    intro t₂ n₂ h1 h2 heq
    cases t₂ with
    | nil =>
      simp only [List.cons_append, List.nil_append, List.cons.injEq] at heq
      obtain ⟨hb, _⟩ := heq
      subst hb
      simp at h1
    | cons b bs =>
      simp only [List.cons_append, List.cons.injEq] at heq
      obtain ⟨rfl, heq'⟩ := heq
      have h1' : ':' ∉ as := fun hx => h1 (List.mem_cons_of_mem _ hx)
      have h2' : ':' ∉ bs := fun hx => h2 (List.mem_cons_of_mem _ hx)
      obtain ⟨hts, hns⟩ := ih h1' h2' heq'
      exact ⟨by rw [hts], hns⟩

theorem string_eq_iff_data {s t : String} : s = t ↔ s.data = t.data :=
  ⟨fun h => h ▸ rfl, String.ext⟩

theorem entKey_split {e₁ e₂ : EntityMention} (h1 : ':' ∉ e₁.type.data)
    (h2 : ':' ∉ e₂.type.data) (h : entKey e₁ = entKey e₂) :
    e₁.type = e₂.type ∧ e₁.name = e₂.name := by
  unfold entKey at h
  have hd := string_eq_iff_data.mp h
  rw [String.data_append, String.data_append, String.data_append, String.data_append] at hd
  have hd' : e₁.type.data ++ ':' :: e₁.name.data = e₂.type.data ++ ':' :: e₂.name.data := by
    simpa using hd
  obtain ⟨ht, hn⟩ := colon_split h1 h2 hd'
  exact ⟨string_eq_iff_data.mpr ht, string_eq_iff_data.mpr hn⟩

theorem relKey_split {r₁ r₂ : RelationMention}
    (hs₁ : ':' ∉ r₁.source_type.data) (hs₂ : ':' ∉ r₂.source_type.data)
    (ht₁ : ':' ∉ r₁.target_type.data) (ht₂ : ':' ∉ r₂.target_type.data)
    (h : relKey r₁ = relKey r₂) :
    r₁.source_type = r₂.source_type ∧ r₁.source_id = r₂.source_id ∧
      r₁.target_type = r₂.target_type ∧ r₁.target_id = r₂.target_id ∧
      r₁.relation_type = r₂.relation_type := by
  unfold relKey at h
  have hd := string_eq_iff_data.mp h
  simp only [String.data_append] at hd
  have hd' :
      r₁.source_type.data ++ ':' :: ((natDec r₁.source_id).data ++ ':' ::
        (r₁.target_type.data ++ ':' :: ((natDec r₁.target_id).data ++ ':' ::
          r₁.relation_type.data))) =
      r₂.source_type.data ++ ':' :: ((natDec r₂.source_id).data ++ ':' ::
        (r₂.target_type.data ++ ':' :: ((natDec r₂.target_id).data ++ ':' ::
          r₂.relation_type.data))) := by
    simpa using hd
  obtain ⟨e1, hrest⟩ := colon_split hs₁ hs₂ hd'
  obtain ⟨e2, hrest⟩ := colon_split (natDec_no_colon _) (natDec_no_colon _) hrest
  obtain ⟨e3, hrest⟩ := colon_split ht₁ ht₂ hrest
  obtain ⟨e4, e5⟩ := colon_split (natDec_no_colon _) (natDec_no_colon _) hrest
  refine ⟨string_eq_iff_data.mpr e1, ?_, string_eq_iff_data.mpr e3, ?_,
    string_eq_iff_data.mpr e5⟩
  · exact natDec_inj (string_eq_iff_data.mpr e2)
  · exact natDec_inj (string_eq_iff_data.mpr e4)

/-! ## Lemmas about graph assembly -/

theorem getLastQ_cons {α : Type} (a : α) (l : List α) :
    (a :: l).getLast? = some (l.getLast?.getD a) := by
  cases h : l.getLast? <;> simp_all [List.getLast?_cons]

theorem edges_addNode (g : Graph) (k : String) (d : NodeData) : (addNode g k d).edges = g.edges :=
  rfl

theorem edges_foldl_addEntityNode (ents : List EntityMention) (g : Graph) :
    (ents.foldl addEntityNode g).edges = g.edges := by
  induction ents generalizing g with
  | nil => rfl
  | cons e rest ih => rw [List.foldl_cons, ih]; rfl

theorem nodes_addRelationEdge (g : Graph) (r : RelationMention) :
    (addRelationEdge g r).nodes = g.nodes := by
  unfold addRelationEdge
  split <;> rfl

theorem nodes_foldl_addRelationEdge (rels : List RelationMention) (g : Graph) :
    (rels.foldl addRelationEdge g).nodes = g.nodes := by
  induction rels generalizing g with
  | nil => rfl
  | cons r rest ih => rw [List.foldl_cons, ih, nodes_addRelationEdge]

theorem edge_endpoints_invariant (rels : List RelationMention) :
    ∀ g : Graph, (∀ pe ∈ g.edges, pe.1.1 ∈ keysA g.nodes ∧ pe.1.2 ∈ keysA g.nodes) →
      ∀ pe ∈ (rels.foldl addRelationEdge g).edges,
        pe.1.1 ∈ keysA (rels.foldl addRelationEdge g).nodes ∧
          pe.1.2 ∈ keysA (rels.foldl addRelationEdge g).nodes := by
  induction rels with
  | nil => intro g hg; simpa using hg
  | cons r rest ih =>
    intro g hg
    rw [List.foldl_cons]
    apply ih
    intro pe hpe
    rw [nodes_addRelationEdge]
    unfold addRelationEdge at hpe
    split at hpe
    · rcases mem_upsertA hpe with rfl | hold
      · rename_i h
        exact ⟨(lookupA_isSome_iff _ _).mp h.1, (lookupA_isSome_iff _ _).mp h.2⟩
      · exact hg pe hold
    · exact hg pe hpe

theorem edges_keys_nodup_foldl (rels : List RelationMention) :
    ∀ g : Graph, (keysA g.edges).Nodup →
      (keysA (rels.foldl addRelationEdge g).edges).Nodup := by
  induction rels with
  | nil => intro g hg; simpa using hg
  | cons r rest ih =>
    intro g hg
    rw [List.foldl_cons]
    apply ih
    unfold addRelationEdge
    split
    · exact keysA_upsertA_nodup _ _ _ hg
    · exact hg

theorem edgeFold_lookup (rels : List RelationMention) :
    ∀ (g : Graph) (q : String × String),
      lookupA q (rels.foldl addRelationEdge g).edges =
        match (rels.filter (admitsEdge g.nodes q)).getLast? with
        | some r => some (edgeDataOf r)
        | none => lookupA q g.edges := by
  induction rels with
  | nil => intro g q; rfl
  | cons r rest ih =>
    intro g q
    rw [List.foldl_cons, List.filter_cons, ih (addRelationEdge g r) q, nodes_addRelationEdge]
    by_cases hc : admitsEdge g.nodes q r = true
    · have hparts : (relSrcKey r, relTgtKey r) = q ∧
          (lookupA (relSrcKey r) g.nodes).isSome = true ∧
          (lookupA (relTgtKey r) g.nodes).isSome = true := by
        unfold admitsEdge at hc
        simp only [Bool.and_eq_true, decide_eq_true_eq] at hc
        exact ⟨hc.1.1, hc.1.2, hc.2⟩
      have hedges : (addRelationEdge g r).edges = upsertA q (edgeDataOf r) g.edges := by
        unfold addRelationEdge
        rw [if_pos ⟨hparts.2.1, hparts.2.2⟩, ← hparts.1]
        rfl
      rw [if_pos hc, getLastQ_cons]
      cases hrest : (rest.filter (admitsEdge g.nodes q)).getLast? with
      | some r2 => simp [hrest]
      | none => simp [hrest, hedges, lookupA_upsertA_self]
    · rw [if_neg hc]
      have hsame : lookupA q (addRelationEdge g r).edges = lookupA q g.edges := by
        unfold addRelationEdge
        split
        · rename_i hin
          have hne : q ≠ (relSrcKey r, relTgtKey r) := by
            intro hq
            apply hc
            unfold admitsEdge
            simp only [Bool.and_eq_true, decide_eq_true_eq]
            exact ⟨⟨hq.symm, hin.1⟩, hin.2⟩
          exact lookupA_upsertA_ne _ _ hne
        · rfl
      rw [hsame]

/-! ## Lemmas about deduplication -/

theorem mem_of_lookupA {κ α : Type} [DecidableEq κ] {m : List (κ × α)} {q : κ} {v : α}
    (h : lookupA q m = some v) : (q, v) ∈ m := by
  induction m with
  | nil => simp [lookupA] at h
  | cons p rest ih =>
    obtain ⟨k, w⟩ := p
    by_cases hk : q = k
    · subst hk
      simp only [lookupA, if_true, reduceIte, Option.some.injEq] at h
      simp [h]
    · simp only [lookupA, if_neg hk] at h
      simp [ih h]

theorem lookupA_eq_of_mem {κ α : Type} [DecidableEq κ] {m : List (κ × α)}
    (hnd : (keysA m).Nodup) {k : κ} {v : α} (h : (k, v) ∈ m) : lookupA k m = some v := by
  induction m with
  | nil => simp at h
  | cons p rest ih =>
    obtain ⟨k0, v0⟩ := p
    have hnd' := List.nodup_cons.mp (show (k0 :: keysA rest).Nodup from hnd)
    rcases List.mem_cons.mp h with heq | hmem
    · rw [Prod.mk.injEq] at heq
      obtain ⟨rfl, rfl⟩ := heq
      simp [lookupA]
    · have hk : k ≠ k0 := by
        rintro rfl
        exact hnd'.1 (List.mem_map_of_mem (·.1) hmem)
      simp [lookupA, hk, ih hnd'.2 hmem]

theorem mem_keysA_of_lookupA {κ α : Type} [DecidableEq κ] {m : List (κ × α)} {q : κ} {v : α}
    (h : lookupA q m = some v) : q ∈ keysA m :=
  (lookupA_isSome_iff q m).mp (by rw [h]; rfl)

theorem map_updateA {κ α β : Type} [DecidableEq κ] (f : κ × α → β) (q : κ) (w : α)
    (m : List (κ × α)) (h : ∀ k v, (k, v) ∈ m → k = q → f (k, w) = f (k, v)) :
    (updateA q w m).map f = m.map f := by
  induction m with
  | nil => rfl
  | cons p rest ih =>
    obtain ⟨k, v⟩ := p
    by_cases hk : q = k
    · subst hk
      have hupd : updateA q w ((q, v) :: rest) = (q, w) :: rest := by simp [updateA]
      rw [hupd, List.map_cons, List.map_cons, h q v (by simp) rfl]
    · have hupd : updateA q w ((k, v) :: rest) = (k, v) :: updateA q w rest := by
        simp [updateA, hk]
      rw [hupd, List.map_cons, List.map_cons,
        ih (fun k2 v2 hm hq => h k2 v2 (by simp [hm]) hq)]

theorem entKey_set_id (e : EntityMention) (v : Option Nat) :
    entKey { e with id := v } = entKey e := rfl

theorem entKey_set_desc (e : EntityMention) (d : Option String) :
    entKey { e with description := d } = entKey e := rfl

theorem entDedupStep_lookup_other {acc : List (String × EntityMention)} {e : EntityMention}
    {q : String} (h : ¬ entKey e = q) :
    lookupA q (entDedupStep acc e) = lookupA q acc := by
  have hne : q ≠ entKey e := fun hq => h hq.symm
  cases hl : lookupA (entKey e) acc with
  | none =>
    simp only [entDedupStep, hl]
    rw [lookupA_append]
    have hsingle : lookupA q [(entKey e, { e with id := some acc.length })] = none := by
      simp [lookupA, hne]
    cases hq : lookupA q acc <;> simp [hq, hsingle]
  | some cur =>
    simp only [entDedupStep, hl]
    split
    · exact lookupA_updateA_ne _ _ hne
    · rfl

theorem entFold_inv (es : List EntityMention) :
    ∀ acc : List (String × EntityMention),
      (keysA acc).Nodup → (∀ p ∈ acc, entKey p.2 = p.1) →
      acc.map (fun p => p.2.id) = (List.range acc.length).map some →
      (keysA (es.foldl entDedupStep acc)).Nodup ∧
        (∀ p ∈ es.foldl entDedupStep acc, entKey p.2 = p.1) ∧
        (es.foldl entDedupStep acc).map (fun p => p.2.id) =
          (List.range (es.foldl entDedupStep acc).length).map some := by
  induction es with
  | nil => intro acc h1 h2 h3; exact ⟨h1, h2, h3⟩
  | cons e rest ih =>
    intro acc h1 h2 h3
    rw [List.foldl_cons]
    apply ih
    · cases hl : lookupA (entKey e) acc with
      | none =>
        simp only [entDedupStep, hl]
        have hnotin : entKey e ∉ keysA acc := (lookupA_eq_none_iff _ _).mp hl
        have hkeys : keysA (acc ++ [(entKey e, { e with id := some acc.length })]) =
            keysA acc ++ [entKey e] := by simp [keysA]
        rw [hkeys]
        simp [List.nodup_append, h1, hnotin]
      | some cur =>
        simp only [entDedupStep, hl]
        split
        · rw [keysA_updateA]; exact h1
        · exact h1
    · cases hl : lookupA (entKey e) acc with
      | none =>
        simp only [entDedupStep, hl]
        intro p hp
        rcases List.mem_append.mp hp with hmem | hmem
        · exact h2 p hmem
        · simp only [List.mem_singleton] at hmem
          subst hmem
          rfl
      | some cur =>
        simp only [entDedupStep, hl]
        have hcurkey : entKey cur = entKey e := h2 _ (mem_of_lookupA hl)
        split
        · intro p hp
          rcases mem_updateA hp with rfl | hmem
          · exact hcurkey
          · exact h2 p hmem
        · exact h2
    · cases hl : lookupA (entKey e) acc with
      | none =>
        simp only [entDedupStep, hl]
        rw [List.map_append, h3, List.length_append]
        simp [List.range_succ]
      | some cur =>
        simp only [entDedupStep, hl]
        split
        · have hmap : (updateA (entKey e) { cur with description := e.description } acc).map
              (fun p => p.2.id) = acc.map (fun p => p.2.id) := by
            apply map_updateA
            intro k v hm hk
            subst hk
            have := lookupA_eq_of_mem h1 hm
            rw [hl] at this
            obtain rfl := Option.some.inj this
            rfl
          rw [hmap, length_updateA]
          exact h3
        · exact h3

theorem entBackfill_nil (v : EntityMention) : entBackfill v [] = v := rfl

theorem entBackfill_cons (v e : EntityMention) (g : List EntityMention) :
    entBackfill v (e :: g) =
      entBackfill
        (if descTruthy e ∧ ¬descTruthy v then { v with description := e.description } else v)
        g := rfl

theorem entFold_lookup_present (es : List EntityMention) :
    ∀ (acc : List (String × EntityMention)) (q : String) (v : EntityMention),
      lookupA q acc = some v →
      lookupA q (es.foldl entDedupStep acc) =
        some (entBackfill v (es.filter (fun e => decide (entKey e = q)))) := by
  induction es with
  | nil => intro acc q v hv; simpa [entBackfill] using hv
  | cons e rest ih =>
    intro acc q v hv
    rw [List.foldl_cons, List.filter_cons]
    by_cases hk : entKey e = q
    · rw [if_pos (show decide (entKey e = q) = true by simp [hk])]
      rw [entBackfill_cons]
      have hv2 : lookupA (entKey e) acc = some v := by rw [hk, hv]
      have hstep : lookupA q (entDedupStep acc e) =
          some (if descTruthy e ∧ ¬descTruthy v then { v with description := e.description }
            else v) := by
        simp only [entDedupStep, hv2]
        rw [← hk]
        split
        · rw [lookupA_updateA_self _ _ _ (by rw [hk]; exact mem_keysA_of_lookupA hv)]
        · rw [hk]; exact hv
      by_cases hcond : descTruthy e = true ∧ ¬descTruthy v = true
      · rw [if_pos hcond] at hstep
        rw [if_pos hcond]
        exact ih _ q _ hstep
      · rw [if_neg hcond] at hstep
        rw [if_neg hcond]
        exact ih _ q _ hstep
    · rw [if_neg (show ¬ decide (entKey e = q) = true by simp [hk])]
      exact ih _ q v (by rw [entDedupStep_lookup_other hk, hv])

theorem entFold_lookup_new (es : List EntityMention) :
    ∀ (acc : List (String × EntityMention)) (q : String),
      lookupA q acc = none →
      es.filter (fun e => decide (entKey e = q)) = [] →
      lookupA q (es.foldl entDedupStep acc) = none := by
  induction es with
  | nil => intro acc q hq _; simpa using hq
  | cons e rest ih =>
    intro acc q hq hfil
    rw [List.filter_cons] at hfil
    by_cases hk : entKey e = q
    · simp [hk] at hfil
    · rw [if_neg (show ¬ decide (entKey e = q) = true by simp [hk])] at hfil
      rw [List.foldl_cons]
      exact ih _ q (by rw [entDedupStep_lookup_other hk, hq]) hfil

theorem entFold_lookup_first (es : List EntityMention) :
    ∀ (acc : List (String × EntityMention)) (q : String) (e : EntityMention)
      (g : List EntityMention),
      lookupA q acc = none →
      es.filter (fun x => decide (entKey x = q)) = e :: g →
      ∃ j, lookupA q (es.foldl entDedupStep acc) =
        some (entBackfill { e with id := some j } g) := by
  induction es with
  | nil => intro acc q e g _ hfil; simp at hfil
  | cons x rest ih =>
    intro acc q e g hq hfil
    rw [List.filter_cons] at hfil
    rw [List.foldl_cons]
    by_cases hk : entKey x = q
    · rw [if_pos (show decide (entKey x = q) = true by simp [hk]), List.cons.injEq] at hfil
      obtain ⟨rfl, rfl⟩ := hfil
      have hq2 : lookupA (entKey x) acc = none := by rw [hk]; exact hq
      have hstep : lookupA q (entDedupStep acc x) = some { x with id := some acc.length } := by
        simp only [entDedupStep, hq2]
        rw [lookupA_append, hq]
        simp [lookupA, hk]
      exact ⟨acc.length,
        entFold_lookup_present rest _ q { x with id := some acc.length } hstep⟩
    · rw [if_neg (show ¬ decide (entKey x = q) = true by simp [hk])] at hfil
      exact ih _ q e g (by rw [entDedupStep_lookup_other hk, hq]) hfil

theorem descTruthy_set_id (e : EntityMention) (j : Option Nat) :
    descTruthy { e with id := j } = descTruthy e := rfl

theorem ent_set_id_eq {x : EntityMention} {v : Option Nat} (h : x.id = v) :
    { x with id := v } = x := by
  cases x
  simp_all

theorem entBackfill_spec (g : List EntityMention) :
    ∀ v : EntityMention,
      entBackfill v g =
        if descTruthy v then v
        else
          match g.filter descTruthy with
          | [] => v
          | d :: _ => { v with description := d.description } := by
  induction g with
  | nil =>
    intro v
    rw [entBackfill_nil]
    split <;> rfl
  | cons e g ih =>
    intro v
    rw [entBackfill_cons, List.filter_cons]
    by_cases hv : descTruthy v = true
    · have hcond : ¬ (descTruthy e = true ∧ ¬descTruthy v = true) := by simp [hv]
      rw [if_neg hcond, ih v, if_pos hv, if_pos hv]
    · by_cases he : descTruthy e = true
      · have hcond : descTruthy e = true ∧ ¬descTruthy v = true := ⟨he, by simp [hv]⟩
        rw [if_pos hcond, ih _,
          if_pos (show descTruthy { v with description := e.description } = true from he),
          if_neg hv, if_pos he]
      · have hcond : ¬ (descTruthy e = true ∧ ¬descTruthy v = true) := by simp [he]
        rw [if_neg hcond, ih v, if_neg hv, if_neg hv, if_neg he]

theorem entBackfill_fields (v : EntityMention) (g : List EntityMention) :
    (entBackfill v g).type = v.type ∧ (entBackfill v g).name = v.name ∧
      (entBackfill v g).id = v.id := by
  rw [entBackfill_spec]
  split
  · exact ⟨rfl, rfl, rfl⟩
  · split <;> exact ⟨rfl, rfl, rfl⟩

theorem relDedupStep_lookup_other {acc : List (String × RelationMention)}
    {r : RelationMention} {q : String} (h : ¬ relKey r = q) :
    lookupA q (relDedupStep acc r) = lookupA q acc := by
  have hne : q ≠ relKey r := fun hq => h hq.symm
  cases hl : lookupA (relKey r) acc with
  | none =>
    simp only [relDedupStep, hl]
    rw [lookupA_append]
    have hsingle : lookupA q [(relKey r, r)] = none := by simp [lookupA, hne]
    cases hq : lookupA q acc <;> simp [hq, hsingle]
  | some cur =>
    simp only [relDedupStep, hl]
    split
    · exact lookupA_updateA_ne _ _ hne
    · rfl

theorem relCombine_nil (o : Option RelationMention) : relCombine o [] = o := rfl

theorem relCombine_none_cons (r : RelationMention) (g : List RelationMention) :
    relCombine none (r :: g) = relCombine (some r) g := rfl

theorem relCombine_some_cons (c r : RelationMention) (g : List RelationMention) :
    relCombine (some c) (r :: g) =
      relCombine (if cf c < cf r then some r else some c) g := rfl

theorem relFold_lookup (rs : List RelationMention) :
    ∀ (acc : List (String × RelationMention)) (q : String),
      lookupA q (rs.foldl relDedupStep acc) =
        relCombine (lookupA q acc) (rs.filter (fun r => decide (relKey r = q))) := by
  induction rs with
  | nil => intro acc q; rfl
  | cons r rest ih =>
    intro acc q
    rw [List.foldl_cons, List.filter_cons]
    by_cases hk : relKey r = q
    · rw [if_pos (show decide (relKey r = q) = true by simp [hk])]
      rw [ih]
      cases hacc : lookupA q acc with
      | none =>
        have hq2 : lookupA (relKey r) acc = none := by rw [hk]; exact hacc
        have hstep : lookupA q (relDedupStep acc r) = some r := by
          simp only [relDedupStep, hq2]
          rw [lookupA_append, hacc]
          simp [lookupA, hk]
        rw [hstep, relCombine_none_cons]
      | some cur =>
        have hq2 : lookupA (relKey r) acc = some cur := by rw [hk]; exact hacc
        rw [relCombine_some_cons]
        by_cases hcf : cf cur < cf r
        · have hstep : lookupA q (relDedupStep acc r) = some r := by
            simp only [relDedupStep, hk, hacc, if_pos hcf]
            exact lookupA_updateA_self _ _ _ (mem_keysA_of_lookupA hacc)
          rw [hstep, if_pos hcf]
        · have hstep : lookupA q (relDedupStep acc r) = some cur := by
            simp only [relDedupStep, hq2, if_neg hcf]
            exact hacc
          rw [hstep, if_neg hcf]
    · rw [if_neg (show ¬ decide (relKey r = q) = true by simp [hk])]
      rw [ih, relDedupStep_lookup_other hk]

theorem relFold_inv (rs : List RelationMention) :
    ∀ acc : List (String × RelationMention),
      (keysA acc).Nodup → (∀ p ∈ acc, relKey p.2 = p.1) →
      (keysA (rs.foldl relDedupStep acc)).Nodup ∧
        ∀ p ∈ rs.foldl relDedupStep acc, relKey p.2 = p.1 := by
  induction rs with
  | nil => intro acc h1 h2; exact ⟨h1, h2⟩
  | cons r rest ih =>
    intro acc h1 h2
    rw [List.foldl_cons]
    apply ih
    · cases hl : lookupA (relKey r) acc with
      | none =>
        simp only [relDedupStep, hl]
        have hnotin : relKey r ∉ keysA acc := (lookupA_eq_none_iff _ _).mp hl
        have hkeys : keysA (acc ++ [(relKey r, r)]) = keysA acc ++ [relKey r] := by
          simp [keysA]
        rw [hkeys]
        simp [List.nodup_append, h1, hnotin]
      | some cur =>
        simp only [relDedupStep, hl]
        split
        · rw [keysA_updateA]; exact h1
        · exact h1
    · cases hl : lookupA (relKey r) acc with
      | none =>
        simp only [relDedupStep, hl]
        intro p hp
        rcases List.mem_append.mp hp with hmem | hmem
        · exact h2 p hmem
        · simp only [List.mem_singleton] at hmem
          subst hmem
          rfl
      | some cur =>
        simp only [relDedupStep, hl]
        split
        · intro p hp
          rcases mem_updateA hp with rfl | hmem
          · rfl
          · exact h2 p hmem
        · exact h2

theorem relCombine_split (g : List RelationMention) :
    ∀ c : RelationMention,
      ∃ g₁ g₂ m, c :: g = g₁ ++ m :: g₂ ∧ relCombine (some c) g = some m ∧
        (∀ x ∈ g₁, cf x < cf m) ∧ (∀ x ∈ g₂, cf x ≤ cf m) := by
  induction g with
  | nil =>
    intro c
    exact ⟨[], [], c, rfl, rfl, by simp, by simp⟩
  | cons r g ih =>
    intro c
    by_cases hc : cf c < cf r
    · obtain ⟨g₁, g₂, m, hsplit, hcomb, h₁, h₂⟩ := ih r
      have hrm : cf r ≤ cf m := by
        cases g₁ with
        | nil =>
          rw [List.nil_append, List.cons.injEq] at hsplit
          rw [hsplit.1]
        | cons y ys =>
          rw [List.cons_append, List.cons.injEq] at hsplit
          rw [hsplit.1]
          exact le_of_lt (h₁ y (List.mem_cons_self y ys))
      refine ⟨c :: g₁, g₂, m, ?_, ?_, ?_, h₂⟩
      · rw [List.cons_append, ← hsplit]
      · rw [relCombine_some_cons, if_pos hc]
        exact hcomb
      · intro x hx
        rcases List.mem_cons.mp hx with rfl | hx
        · exact lt_of_lt_of_le hc hrm
        · exact h₁ x hx
    · obtain ⟨g₁, g₂, m, hsplit, hcomb, h₁, h₂⟩ := ih c
      cases g₁ with
      | nil =>
        rw [List.nil_append, List.cons.injEq] at hsplit
        obtain ⟨rfl, rfl⟩ := hsplit
        refine ⟨[], r :: g, c, rfl, ?_, by simp, ?_⟩
        · rw [relCombine_some_cons, if_neg hc]
          exact hcomb
        · intro x hx
          rcases List.mem_cons.mp hx with rfl | hx
          · exact le_of_not_lt hc
          · exact h₂ x hx
      | cons y ys =>
        rw [List.cons_append, List.cons.injEq] at hsplit
        obtain ⟨rfl, hg⟩ := hsplit
        refine ⟨c :: r :: ys, g₂, m, ?_, ?_, ?_, h₂⟩
        · rw [hg]
          rfl
        · rw [relCombine_some_cons, if_neg hc]
          exact hcomb
        · intro x hx
          rcases List.mem_cons.mp hx with rfl | hx
          · exact h₁ x (List.mem_cons_self _ _)
          · rcases List.mem_cons.mp hx with rfl | hx
            · exact lt_of_le_of_lt (le_of_not_lt hc) (h₁ c (List.mem_cons_self _ _))
            · exact h₁ x (List.mem_cons_of_mem _ hx)

theorem filter_eq_singleton_of_imp {α : Type} {p q : α → Bool} {l : List α} {x : α}
    (himp : ∀ a, p a = true → q a = true) (hq : l.filter q = [x]) (hpx : p x = true) :
    l.filter p = [x] := by
  induction l with
  | nil => simp at hq
  | cons a l ih =>
    rw [List.filter_cons] at hq ⊢
    by_cases hqa : q a = true
    · rw [if_pos hqa, List.cons.injEq] at hq
      obtain ⟨rfl, hrest⟩ := hq
      rw [if_pos hpx, List.cons.injEq]
      refine ⟨rfl, ?_⟩
      rw [List.filter_eq_nil_iff] at hrest ⊢
      intro y hy hpy
      exact hrest y hy (himp y hpy)
    · rw [if_neg hqa] at hq
      have hpa : ¬ p a = true := fun hp => hqa (himp a hp)
      rw [if_neg hpa]
      exact ih hq

theorem ent_rerun (xs : List EntityMention) :
    ∀ acc : List (String × EntityMention),
      (∀ x ∈ xs, entKey x ∉ keysA acc) →
      (xs.map entKey).Nodup →
      xs.map (fun x => x.id) =
        (List.range xs.length).map (fun i => some (acc.length + i)) →
      xs.foldl entDedupStep acc = acc ++ xs.map (fun x => (entKey x, x)) := by
  induction xs with
  | nil => intro acc _ _ _; simp
  | cons x rest ih =>
    intro acc hdisj hnd hid
    rw [List.foldl_cons]
    have hlook : lookupA (entKey x) acc = none :=
      (lookupA_eq_none_iff _ _).mpr (hdisj x (by simp))
    rw [List.length_cons, List.range_succ_eq_map, List.map_cons, List.map_cons,
      List.cons.injEq] at hid
    obtain ⟨hxid, htail⟩ := hid
    have hxid2 : x.id = some acc.length := by simpa using hxid
    have hstep : entDedupStep acc x = acc ++ [(entKey x, x)] := by
      simp only [entDedupStep, hlook]
      rw [ent_set_id_eq hxid2]
    rw [hstep]
    have hrest := ih (acc ++ [(entKey x, x)]) ?_ ?_ ?_
    · rw [hrest, List.map_cons, List.append_assoc]
      rfl
    · intro y hy
      have hne : entKey y ≠ entKey x := by
        have := List.nodup_cons.mp hnd
        intro hc
        exact this.1 (hc ▸ List.mem_map_of_mem entKey hy)
      have hnotacc : entKey y ∉ keysA acc := hdisj y (by simp [hy])
      have hkeys : keysA (acc ++ [(entKey x, x)]) = keysA acc ++ [entKey x] := by
        simp [keysA]
      rw [hkeys]
      simp only [List.mem_append, List.mem_singleton]
      rintro (hmem | hmem)
      · exact hnotacc hmem
      · exact hne hmem
    · exact (List.nodup_cons.mp hnd).2
    · rw [List.map_map] at htail
      rw [htail]
      apply List.map_congr_left
      intro i _
      have : acc.length + (i + 1) = (acc ++ [(entKey x, x)]).length + i := by
        simp
        omega
      simp [Function.comp, Nat.succ_eq_add_one]
      omega

theorem rel_rerun (xs : List RelationMention) :
    ∀ acc : List (String × RelationMention),
      (∀ x ∈ xs, relKey x ∉ keysA acc) →
      (xs.map relKey).Nodup →
      xs.foldl relDedupStep acc = acc ++ xs.map (fun x => (relKey x, x)) := by
  induction xs with
  | nil => intro acc _ _; simp
  | cons x rest ih =>
    intro acc hdisj hnd
    rw [List.foldl_cons]
    have hlook : lookupA (relKey x) acc = none :=
      (lookupA_eq_none_iff _ _).mpr (hdisj x (by simp))
    have hstep : relDedupStep acc x = acc ++ [(relKey x, x)] := by
      simp only [relDedupStep, hlook]
    rw [hstep]
    have hrest := ih (acc ++ [(relKey x, x)]) ?_ ?_
    · rw [hrest, List.map_cons, List.append_assoc]
      rfl
    · intro y hy
      have hne : relKey y ≠ relKey x := by
        have := List.nodup_cons.mp hnd
        intro hc
        exact this.1 (hc ▸ List.mem_map_of_mem relKey hy)
      have hnotacc : relKey y ∉ keysA acc := hdisj y (by simp [hy])
      have hkeys : keysA (acc ++ [(relKey x, x)]) = keysA acc ++ [relKey x] := by
        simp [keysA]
      rw [hkeys]
      simp only [List.mem_append, List.mem_singleton]
      rintro (hmem | hmem)
      · exact hnotacc hmem
      · exact hne hmem
    · exact (List.nodup_cons.mp hnd).2

/-! ## Claim theorems -/

/-- C4: in every assembled graph each edge has both its source key and its
target key among the graph's nodes, and the edge-adding step skips (returns
the graph unchanged, raising nothing) any relation one of whose endpoint
keys is absent. -/
theorem claim4_no_dangling_edges :
    (∀ (ents : List EntityMention) (rels : List RelationMention)
        (pe : (String × String) × EdgeData),
        pe ∈ (build_graph ents rels).edges →
          pe.1.1 ∈ keysA (build_graph ents rels).nodes ∧
            pe.1.2 ∈ keysA (build_graph ents rels).nodes) ∧
    (∀ (g : Graph) (r : RelationMention),
        ¬ ((lookupA (relSrcKey r) g.nodes).isSome = true ∧
            (lookupA (relTgtKey r) g.nodes).isSome = true) →
        addRelationEdge g r = g) := by
  constructor
  · intro ents rels pe hpe
    have hinit : ∀ pe ∈ (ents.foldl addEntityNode ⟨[], []⟩ : Graph).edges,
        pe.1.1 ∈ keysA (ents.foldl addEntityNode ⟨[], []⟩ : Graph).nodes ∧
          pe.1.2 ∈ keysA (ents.foldl addEntityNode ⟨[], []⟩ : Graph).nodes := by
      intro pe hpe
      rw [edges_foldl_addEntityNode] at hpe
      simp at hpe
    exact edge_endpoints_invariant rels _ hinit pe hpe
  · intro g r h
    unfold addRelationEdge
    rw [if_neg h]

/-- C4 witness: a concrete build in which the single relation is admitted
and its endpoint keys are nodes of the result. -/
theorem claim4_no_dangling_edges_witness :
    ((("药物_0", "疾病_0"), (⟨"治疗", Rat.divInt 9 10, ""⟩ : EdgeData)) ∈
        (build_graph
          [⟨"疾病", "糖尿病", "d", none, some 0, ""⟩, ⟨"药物", "胰岛素", "d", none, some 0, ""⟩]
          [⟨0, "药物", "胰岛素", 0, "疾病", "糖尿病", "治疗", none, some (Rat.divInt 9 10)⟩]).edges) ∧
    ("药物_0" ∈ keysA
        (build_graph
          [⟨"疾病", "糖尿病", "d", none, some 0, ""⟩, ⟨"药物", "胰岛素", "d", none, some 0, ""⟩]
          [⟨0, "药物", "胰岛素", 0, "疾病", "糖尿病", "治疗", none, some (Rat.divInt 9 10)⟩]).nodes ∧
      "疾病_0" ∈ keysA
        (build_graph
          [⟨"疾病", "糖尿病", "d", none, some 0, ""⟩, ⟨"药物", "胰岛素", "d", none, some 0, ""⟩]
          [⟨0, "药物", "胰岛素", 0, "疾病", "糖尿病", "治疗", none, some (Rat.divInt 9 10)⟩]).nodes) :=
  ⟨List.mem_singleton.mpr rfl,
    claim4_no_dangling_edges.1
      [⟨"疾病", "糖尿病", "d", none, some 0, ""⟩, ⟨"药物", "胰岛素", "d", none, some 0, ""⟩]
      [⟨0, "药物", "胰岛素", 0, "疾病", "糖尿病", "治疗", none, some (Rat.divInt 9 10)⟩]
      (("药物_0", "疾病_0"), (⟨"治疗", Rat.divInt 9 10, ""⟩ : EdgeData))
      (List.mem_singleton.mpr rfl)⟩

/-- C5 counterexample: two relations agreeing on source and target but
differing in `relation_type` do not yield two distinct edges — the DiGraph
stores a single edge for the endpoint pair and the second relation
overwrites the attributes of the first, so the assembled graph has exactly
one edge, whose type is the second relation's type, although both
relations' endpoint keys exist among the nodes. -/
theorem claim5_counterexample :
    ((build_graph
        [⟨"疾病", "糖尿病", "d", none, some 0, ""⟩, ⟨"药物", "胰岛素", "d", none, some 0, ""⟩]
        [⟨0, "药物", "胰岛素", 0, "疾病", "糖尿病", "治疗", none, some (9 / 10)⟩,
         ⟨0, "药物", "胰岛素", 0, "疾病", "糖尿病", "预防", none, some (8 / 10)⟩]).edges.length
      = 1) ∧
    ((build_graph
        [⟨"疾病", "糖尿病", "d", none, some 0, ""⟩, ⟨"药物", "胰岛素", "d", none, some 0, ""⟩]
        [⟨0, "药物", "胰岛素", 0, "疾病", "糖尿病", "治疗", none, some (9 / 10)⟩,
         ⟨0, "药物", "胰岛素", 0, "疾病", "糖尿病", "预防", none, some (8 / 10)⟩]).edges.map
      (fun pe => pe.2.type) = ["预防"]) ∧
    (lookupA "药物_0"
        (build_graph
          [⟨"疾病", "糖尿病", "d", none, some 0, ""⟩, ⟨"药物", "胰岛素", "d", none, some 0, ""⟩]
          []).nodes).isSome = true ∧
    (lookupA "疾病_0"
        (build_graph
          [⟨"疾病", "糖尿病", "d", none, some 0, ""⟩, ⟨"药物", "胰岛素", "d", none, some 0, ""⟩]
          []).nodes).isSome = true :=
  ⟨rfl, rfl, rfl, rfl⟩

/-- C5 amended: the assembled graph has at most one edge per
(source key, target key) pair — the edge keys are duplicate-free — and the
edge stored at a pair carries the attributes of the last relation admitted
for that pair (both endpoint keys present among the nodes built from the
entity list); relations differing only in `relation_type` therefore
collapse into a single edge rather than appearing as distinct edges. -/
theorem claim5_one_edge_per_endpoint_pair (ents : List EntityMention)
    (rels : List RelationMention) (q : String × String) :
    (keysA (build_graph ents rels).edges).Nodup ∧
    lookupA q (build_graph ents rels).edges =
      match (rels.filter (admitsEdge (build_graph ents []).nodes q)).getLast? with
      | some r => some (edgeDataOf r)
      | none => none := by
  constructor
  · apply edges_keys_nodup_foldl
    rw [edges_foldl_addEntityNode]
    simp [keysA]
  · have h := edgeFold_lookup rels (ents.foldl addEntityNode ⟨[], []⟩) q
    rw [edges_foldl_addEntityNode] at h
    rw [show (build_graph ents rels) = rels.foldl addRelationEdge
        (ents.foldl addEntityNode ⟨[], []⟩) from rfl, h]
    rfl

/-- C7 counterexample: the retrieval engine does not collect incoming
edges. In this graph the only matched node for question entity 糖尿病 is
疾病_0, the graph holds the single edge 药物_0 → 疾病_0 (an incoming edge
of the matched node), the question yields no relation-type hints, and yet
the retrieved-relation list is empty. -/
theorem claim7_counterexample :
    matchedNodes
        ⟨[("疾病_0", ⟨"疾病_0", "糖尿病", "疾病", "d", "", ""⟩),
          ("药物_0", ⟨"药物_0", "胰岛素", "药物", "d", "", ""⟩)],
         [(("药物_0", "疾病_0"), ⟨"治疗", Rat.divInt 9 10, ""⟩)]⟩
        ⟨some "糖尿病", none⟩ =
      [("疾病_0", ⟨"疾病_0", "糖尿病", "疾病", "d", "", ""⟩)] ∧
    (retrieve_kg_information
        ⟨[("疾病_0", ⟨"疾病_0", "糖尿病", "疾病", "d", "", ""⟩),
          ("药物_0", ⟨"药物_0", "胰岛素", "药物", "d", "", ""⟩)],
         [(("药物_0", "疾病_0"), ⟨"治疗", Rat.divInt 9 10, ""⟩)]⟩
        [⟨some "糖尿病", none⟩] []).2 = [] :=
  ⟨rfl, rfl⟩

/-- C7 amended: for each matched node the engine collects the node's
outgoing edges only (networkx `DiGraph.edges(nbunch)` does not yield
in-edges), and a graph edge contributes a retrieved relation exactly when
its source node is matched by some question entity and either the question
yielded no relation-type hints or the edge's type is among the hints. -/
theorem claim7_outgoing_edges_hint_filter (g : Graph) (qes : List QEntity)
    (hints : List String) (x : RetRelation) :
    x ∈ (retrieve_kg_information g qes hints).2 ↔
      ∃ qe ∈ qes, ∃ kv ∈ matchedNodes g qe, ∃ pe ∈ g.edges,
        pe.1.1 = kv.1 ∧ keepEdge hints pe.2 = true ∧ x = relForEdge g pe := by
  simp only [retrieve_kg_information, List.mem_flatMap, List.mem_map, List.mem_filter,
    outEdges]
  constructor
  · rintro ⟨qe, hqe, kv, hkv, pe, ⟨⟨hpe, hsrc⟩, hkeep⟩, rfl⟩
    exact ⟨qe, hqe, kv, hkv, pe, hpe, by simpa using hsrc, hkeep, rfl⟩
  · rintro ⟨qe, hqe, kv, hkv, pe, hpe, hsrc, hkeep, rfl⟩
    exact ⟨qe, hqe, kv, hkv, pe, ⟨⟨hpe, by simpa using hsrc⟩, hkeep⟩, rfl⟩

/-- C8: a graph node is retrieved for a question entity exactly when the
node's stored name contains the question-entity name as a case-insensitive
substring (node-name contains entity-name, not the reverse) and either no
type was given or it equals the node's type; in particular any node named
2型糖尿病 matches question-entity name 糖尿病 while any node named 糖 does
not. -/
theorem claim8_retrieval_matching :
    (∀ (g : Graph) (qe : QEntity) (kv : String × NodeData),
        kv ∈ matchedNodes g qe ↔
          kv ∈ g.nodes ∧
            (∃ p s, lowerData kv.2.name =
              p ++ lowerData (qe.name.getD "") ++ s) ∧
            (qe.type.getD "" = "" ∨ qe.type.getD "" = kv.2.type)) ∧
    (∀ nd : NodeData, nd.name = "2型糖尿病" → matchNodeB "糖尿病" "" nd = true) ∧
    (∀ nd : NodeData, nd.name = "糖" → matchNodeB "糖尿病" "" nd = false) := by
  refine ⟨?_, ?_, ?_⟩
  · intro g qe kv
    simp [matchedNodes, List.mem_filter, matchNodeB, Bool.and_eq_true, Bool.or_eq_true,
      decide_eq_true_eq, containsSub_iff]
  · intro nd h
    have hsub : containsSub (lowerData "2型糖尿病") (lowerData "糖尿病") = true := by decide
    simp [matchNodeB, h, hsub]
  · intro nd h
    have hsub : containsSub (lowerData "糖") (lowerData "糖尿病") = false := by decide
    simp [matchNodeB, h, hsub]

/-- C8 witness: the matching predicate evaluated on a concrete node named
2型糖尿病. -/
theorem claim8_retrieval_matching_witness :
    (⟨"疾病_0", "2型糖尿病", "疾病", "d", "", ""⟩ : NodeData).name = "2型糖尿病" ∧
      matchNodeB "糖尿病" "" ⟨"疾病_0", "2型糖尿病", "疾病", "d", "", ""⟩ = true :=
  ⟨rfl, claim8_retrieval_matching.2.1 _ rfl⟩

/-- C9: on the entity pair 胰岛素 (药物) → 糖尿病 (疾病) the relation
extractor returns the single hardcoded relation 治疗 with confidence 1.0,
whatever the generation service would have answered — the result does not
depend on the response argument, which models that no service call is
needed for this pair. -/
theorem claim9_predefined_shortcut (resp : ApiResponse) :
    extract_medical_relations ⟨some "胰岛素", some "药物"⟩ ⟨some "糖尿病", some "疾病"⟩ resp =
      [⟨some "治疗", some "胰岛素用于治疗糖尿病", some 1⟩] := rfl

/-- C10: a question entity with empty (or absent) name and type matches
every node of the graph, and retrieval returns every node. -/
theorem claim10_empty_question_entity (g : Graph) (qe : QEntity) (hints : List String)
    (hname : qe.name.getD "" = "") (htype : qe.type.getD "" = "") :
    matchedNodes g qe = g.nodes ∧
      (retrieve_kg_information g [qe] hints).1 = g.nodes.map (·.2) := by
  have hall : ∀ kv : String × NodeData,
      matchNodeB (qe.name.getD "") (qe.type.getD "") kv.2 = true := by
    intro kv
    have h0 : lowerData "" = [] := rfl
    simp [matchNodeB, hname, htype, h0, containsSub_nil_needle]
  have hmat : matchedNodes g qe = g.nodes :=
    List.filter_eq_self.mpr (fun kv _ => hall kv)
  refine ⟨hmat, ?_⟩
  simp [retrieve_kg_information, hmat]

/-- C10 witness: on a one-node graph and the question entity with both
fields absent, all nodes are retrieved. -/
theorem claim10_empty_question_entity_witness :
    ((⟨none, none⟩ : QEntity).name.getD "" = "" ∧ (⟨none, none⟩ : QEntity).type.getD "" = "") ∧
      (matchedNodes ⟨[("疾病_0", ⟨"疾病_0", "糖尿病", "疾病", "d", "", ""⟩)], []⟩ ⟨none, none⟩ =
          ([("疾病_0", ⟨"疾病_0", "糖尿病", "疾病", "d", "", ""⟩)] :
            List (String × NodeData)) ∧
        (retrieve_kg_information ⟨[("疾病_0", ⟨"疾病_0", "糖尿病", "疾病", "d", "", ""⟩)], []⟩
            [⟨none, none⟩] []).1 =
          ([("疾病_0", ⟨"疾病_0", "糖尿病", "疾病", "d", "", ""⟩)] :
            List (String × NodeData)).map (·.2)) :=
  ⟨⟨rfl, rfl⟩, claim10_empty_question_entity _ _ _ rfl rfl⟩

/-- Any relation produced by the shortcut table carries confidence 1.0. -/
theorem checkPredefined_conf {sn st tn tt : String} {r : RelResp}
    (h : r ∈ checkPredefined sn st tn tt) : r.confidence = some 1 := by
  unfold checkPredefined at h
  split at h
  · simp only [List.mem_singleton] at h
    subst h
    rfl
  · split at h
    · simp only [List.mem_singleton] at h
      subst h
      rfl
    · split at h
      · simp only [List.mem_singleton] at h
        subst h
        rfl
      · simp at h

/-- C6: no relation of confidence below 0.6 survives the extraction step —
every relation in the extractor's output carries an explicit confidence at
least 0.6 — and a response relation with a type but no confidence field is
assigned confidence 1.0 and always survives the filter. -/
theorem claim6_confidence_filter :
    (∀ (src tgt : MEntity) (resp : ApiResponse) (r : RelResp),
        r ∈ extract_medical_relations src tgt resp →
          ∃ c : ℚ, r.confidence = some c ∧ ¬ c < 0.6) ∧
    (∀ (sn st tn tt : String) (resp : ApiResponse) (r : RelResp),
        checkPredefined (swapByMap sn st tn tt).1 (swapByMap sn st tn tt).2.1
            (swapByMap sn st tn tt).2.2.1 (swapByMap sn st tn tt).2.2.2 = [] →
        r ∈ respRelations resp → r.type.isSome = true → r.confidence = none →
        { r with confidence := some 1 } ∈
          extract_medical_relations ⟨some sn, some st⟩ ⟨some tn, some tt⟩ resp) := by
  constructor
  · intro src tgt resp r hr
    unfold extract_medical_relations at hr
    split at hr
    rotate_left
    · simp at hr
    · rename_i sn tn hsn htn
      split at hr
      rotate_left
      · simp at hr
      · rename_i st tt hst htt
        split at hr
        · obtain ⟨a, ha, hval⟩ := List.mem_filterMap.mp hr
          unfold validRel at hval
          split at hval
          · split at hval
            · simp at hval
            · rename_i hv
              obtain rfl := Option.some.inj hval
              exact ⟨a.confidence.getD 1, rfl, hv⟩
          · simp at hval
        · have hc := checkPredefined_conf hr
          refine ⟨1, hc, by norm_num⟩
  · intro sn st tn tt resp r hpre hmem htype hconf
    unfold extract_medical_relations
    simp only [hpre, List.isEmpty_nil, if_pos]
    refine List.mem_filterMap.mpr ⟨r, hmem, ?_⟩
    unfold validRel
    rw [if_pos htype, hconf]
    norm_num

/-- C6 witness: a concrete pair outside every shortcut, with a response
relation lacking the confidence field; it appears in the output with
confidence 1.0. -/
theorem claim6_confidence_filter_witness :
    (checkPredefined (swapByMap "阿司匹林" "药物" "头痛" "症状").1
        (swapByMap "阿司匹林" "药物" "头痛" "症状").2.1
        (swapByMap "阿司匹林" "药物" "头痛" "症状").2.2.1
        (swapByMap "阿司匹林" "药物" "头痛" "症状").2.2.2 = [] ∧
      (⟨some "相关", none, none⟩ : RelResp) ∈
        respRelations (.arr [⟨some "相关", none, none⟩]) ∧
      (⟨some "相关", none, none⟩ : RelResp).type.isSome = true ∧
      (⟨some "相关", none, none⟩ : RelResp).confidence = none) ∧
    ({ (⟨some "相关", none, none⟩ : RelResp) with confidence := some 1 } ∈
      extract_medical_relations ⟨some "阿司匹林", some "药物"⟩ ⟨some "头痛", some "症状"⟩
        (.arr [⟨some "相关", none, none⟩])) :=
  ⟨⟨by decide, by decide, rfl, rfl⟩,
    claim6_confidence_filter.2 "阿司匹林" "药物" "头痛" "症状" (.arr [⟨some "相关", none, none⟩])
      ⟨some "相关", none, none⟩ (by decide) (by decide) rfl rfl⟩



/-- C1 counterexample: the relation dedup key is the string
`source_type:source_id:target_type:target_id:relation_type`, which
conflates distinct identity keys when a type contains the separator: the
tuples ("s",1,"b:2",3,"r") and ("s",1,"b",2,"3:r") share the joined key
"s:1:b:2:3:r", so the second mention is merged into the first and no
output relation carries the identity key ("s",1,"b",2,"3:r") although a
mention with it exists. -/
theorem claim1_counterexample :
    ((deduplicate_relations
        [⟨1, "s", "x", 3, "b:2", "y", "r", none, none⟩,
         ⟨1, "s", "x", 2, "b", "y", "3:r", none, none⟩]).filter
      (fun r => decide (r.source_type = "s" ∧ r.source_id = 1 ∧ r.target_type = "b" ∧
        r.target_id = 2 ∧ r.relation_type = "3:r"))).length = 0 ∧
    (([⟨1, "s", "x", 3, "b:2", "y", "r", none, none⟩,
       ⟨1, "s", "x", 2, "b", "y", "3:r", none, none⟩] : List RelationMention).filter
      (fun r => decide (r.source_type = "s" ∧ r.source_id = 1 ∧ r.target_type = "b" ∧
        r.target_id = 2 ∧ r.relation_type = "3:r"))).length = 1 := by
  decide

/-- C1 amended: provided no relation's source or target type contains the
separator character ':', each identity key
(source_type, source_id, target_type, target_id, relation_type) present in
the input is represented by exactly one relation in the dedup output, and
that survivor is an occurrence of maximal confidence (missing confidences
reading as 0, as the code's `get` default does): every earlier colliding
occurrence has strictly smaller confidence and every later one has no
larger confidence, so ties keep the first-seen occurrence. -/
theorem claim1_relation_dedup_max_confidence (rs : List RelationMention)
    (htype : ∀ r ∈ rs, ':' ∉ r.source_type.data ∧ ':' ∉ r.target_type.data)
    (st tt rt : String) (si ti : Nat) (r₀ : RelationMention) (h₀ : r₀ ∈ rs)
    (hst : r₀.source_type = st) (hsi : r₀.source_id = si) (htt : r₀.target_type = tt)
    (hti : r₀.target_id = ti) (hrt : r₀.relation_type = rt) :
    ∃ m g₁ g₂,
      rs.filter (fun r => decide (r.source_type = st ∧ r.source_id = si ∧
        r.target_type = tt ∧ r.target_id = ti ∧ r.relation_type = rt)) =
        g₁ ++ m :: g₂ ∧
      (∀ x ∈ g₁, cf x < cf m) ∧ (∀ x ∈ g₂, cf x ≤ cf m) ∧
      (deduplicate_relations rs).filter (fun r => decide (r.source_type = st ∧
        r.source_id = si ∧ r.target_type = tt ∧ r.target_id = ti ∧
        r.relation_type = rt)) = [m] := by
  obtain ⟨hnd, hcons⟩ := relFold_inv rs [] (by simp [keysA]) (by simp)
  have hbridgeP : ∀ r ∈ rs,
      (r.source_type = st ∧ r.source_id = si ∧ r.target_type = tt ∧ r.target_id = ti ∧
        r.relation_type = rt) ↔ relKey r = relKey r₀ := by
    intro r hr
    constructor
    · rintro ⟨h1, h2, h3, h4, h5⟩
      simp only [relKey, h1, h2, h3, h4, h5, hst, hsi, htt, hti, hrt]
    · intro hkey
      obtain ⟨e1, e2, e3, e4, e5⟩ := relKey_split (htype r hr).1 (htype r₀ h₀).1
        (htype r hr).2 (htype r₀ h₀).2 hkey
      exact ⟨e1.trans hst, e2.trans hsi, e3.trans htt, e4.trans hti, e5.trans hrt⟩
  have hbridge : ∀ r ∈ rs,
      decide (r.source_type = st ∧ r.source_id = si ∧ r.target_type = tt ∧
        r.target_id = ti ∧ r.relation_type = rt) = decide (relKey r = relKey r₀) :=
    fun r hr => decide_eq_decide.mpr (hbridgeP r hr)
  have hfeq := List.filter_congr hbridge
  cases hgrp : rs.filter (fun r => decide (relKey r = relKey r₀)) with
  | nil =>
    exfalso
    have hm : r₀ ∈ rs.filter (fun r => decide (relKey r = relKey r₀)) :=
      List.mem_filter.mpr ⟨h₀, by simp⟩
    rw [hgrp] at hm
    simp at hm
  | cons c g =>
    have hlookup := relFold_lookup rs [] (relKey r₀)
    rw [hgrp, show lookupA (relKey r₀) ([] : List (String × RelationMention)) = none from rfl,
      relCombine_none_cons] at hlookup
    obtain ⟨g₁, g₂, m, hsplit, hcomb, h₁, h₂⟩ := relCombine_split g c
    rw [hcomb] at hlookup
    have hout : (deduplicate_relations rs).filter
        (fun v => decide (relKey v = relKey r₀)) = [m] := by
      unfold deduplicate_relations
      rw [filter_values_eq_lookupA relKey _ hcons hnd, hlookup]
      rfl
    have hmmem : m ∈ rs.filter (fun r => decide (relKey r = relKey r₀)) := by
      rw [hgrp, hsplit]
      exact List.mem_append.mpr (Or.inr (List.mem_cons_self _ _))
    have hmP := List.mem_filter.mp hmmem
    have hmT : m.source_type = st ∧ m.source_id = si ∧ m.target_type = tt ∧
        m.target_id = ti ∧ m.relation_type = rt :=
      (hbridgeP m hmP.1).mpr (of_decide_eq_true hmP.2)
    have houtT : (deduplicate_relations rs).filter (fun r => decide (r.source_type = st ∧
        r.source_id = si ∧ r.target_type = tt ∧ r.target_id = ti ∧
        r.relation_type = rt)) = [m] := by
      refine filter_eq_singleton_of_imp ?_ hout ?_
      · intro a ha
        have hh := of_decide_eq_true ha
        exact decide_eq_true (by
          simp only [relKey, hh.1, hh.2.1, hh.2.2.1, hh.2.2.2.1, hh.2.2.2.2,
            hst, hsi, htt, hti, hrt])
      · exact decide_eq_true hmT
    exact ⟨m, g₁, g₂, hfeq.trans (hgrp.trans hsplit), h₁, h₂, houtT⟩

/-- C1 witness: two colliding mentions of the pair 胰岛素 → 糖尿病 with
confidences 0.7 and 0.9; the theorem applies with all hypotheses
discharged on this input. -/
theorem claim1_relation_dedup_max_confidence_witness :
    (∀ r ∈ ([⟨0, "药物", "胰岛素", 0, "疾病", "糖尿病", "治疗", none,
              some (Rat.divInt 7 10)⟩,
            ⟨0, "药物", "胰岛素", 0, "疾病", "糖尿病", "治疗", none,
              some (Rat.divInt 9 10)⟩] : List RelationMention),
      ':' ∉ r.source_type.data ∧ ':' ∉ r.target_type.data) ∧
    (∃ m g₁ g₂,
      ([⟨0, "药物", "胰岛素", 0, "疾病", "糖尿病", "治疗", none,
          some (Rat.divInt 7 10)⟩,
        ⟨0, "药物", "胰岛素", 0, "疾病", "糖尿病", "治疗", none,
          some (Rat.divInt 9 10)⟩] : List RelationMention).filter
        (fun r => decide (r.source_type = "药物" ∧ r.source_id = 0 ∧
          r.target_type = "疾病" ∧ r.target_id = 0 ∧ r.relation_type = "治疗")) =
        g₁ ++ m :: g₂ ∧
      (∀ x ∈ g₁, cf x < cf m) ∧ (∀ x ∈ g₂, cf x ≤ cf m) ∧
      (deduplicate_relations
          [⟨0, "药物", "胰岛素", 0, "疾病", "糖尿病", "治疗", none,
            some (Rat.divInt 7 10)⟩,
           ⟨0, "药物", "胰岛素", 0, "疾病", "糖尿病", "治疗", none,
            some (Rat.divInt 9 10)⟩]).filter
        (fun r => decide (r.source_type = "药物" ∧ r.source_id = 0 ∧
          r.target_type = "疾病" ∧ r.target_id = 0 ∧ r.relation_type = "治疗")) = [m]) :=
  ⟨by decide,
    claim1_relation_dedup_max_confidence _ (by decide) "药物" "疾病" "治疗" 0 0
      ⟨0, "药物", "胰岛素", 0, "疾病", "糖尿病", "治疗", none, some (Rat.divInt 7 10)⟩
      (by decide) rfl rfl rfl rfl rfl⟩

/-- C2: both deduplicators are idempotent — re-running either on its own
output (ids and backfilled descriptions included) returns it unchanged. -/
theorem claim2_dedup_idempotent (es : List EntityMention) (rs : List RelationMention) :
    deduplicate_entities (deduplicate_entities es) = deduplicate_entities es ∧
      deduplicate_relations (deduplicate_relations rs) = deduplicate_relations rs := by
  constructor
  · obtain ⟨hnd, hcons, hid⟩ := entFold_inv es [] (by simp [keysA]) (by simp) (by simp)
    have hkeysX : (deduplicate_entities es).map entKey =
        keysA (es.foldl entDedupStep []) := by
      unfold deduplicate_entities
      rw [List.map_map]
      exact List.map_congr_left (fun p hp => hcons p hp)
    have hndX : ((deduplicate_entities es).map entKey).Nodup := by
      rw [hkeysX]
      exact hnd
    have h1 : (deduplicate_entities es).map (fun x => x.id) =
        (es.foldl entDedupStep []).map (fun p => p.2.id) := by
      unfold deduplicate_entities
      rw [List.map_map]
      rfl
    have h2 : (deduplicate_entities es).length = (es.foldl entDedupStep []).length := by
      unfold deduplicate_entities
      rw [List.length_map]
    have hidX : (deduplicate_entities es).map (fun x => x.id) =
        (List.range (deduplicate_entities es).length).map
          (fun i => some (([] : List (String × EntityMention)).length + i)) := by
      rw [h1, h2, hid]
      apply List.map_congr_left
      intro i _
      simp
    have hrerun := ent_rerun (deduplicate_entities es) [] (by simp [keysA]) hndX hidX
    show ((deduplicate_entities es).foldl entDedupStep []).map (fun p => p.2) =
      deduplicate_entities es
    rw [hrerun, List.nil_append, List.map_map]
    have hfuse : ((fun p : String × EntityMention => p.2) ∘ fun x => (entKey x, x)) =
        fun x : EntityMention => x := rfl
    rw [hfuse]
    exact List.map_id _
  · obtain ⟨hnd, hcons⟩ := relFold_inv rs [] (by simp [keysA]) (by simp)
    have hndX : ((deduplicate_relations rs).map relKey).Nodup := by
      have hkeysX : (deduplicate_relations rs).map relKey =
          keysA (rs.foldl relDedupStep []) := by
        unfold deduplicate_relations
        rw [List.map_map]
        exact List.map_congr_left (fun p hp => hcons p hp)
      rw [hkeysX]
      exact hnd
    have hrerun := rel_rerun (deduplicate_relations rs) [] (by simp [keysA]) hndX
    show ((deduplicate_relations rs).foldl relDedupStep []).map (fun p => p.2) =
      deduplicate_relations rs
    rw [hrerun, List.nil_append, List.map_map]
    have hfuse : ((fun p : String × RelationMention => p.2) ∘ fun x => (relKey x, x)) =
        fun x : RelationMention => x := rfl
    rw [hfuse]
    exact List.map_id _

/-- C3 counterexample: the entity dedup key is the string `type:name`,
which conflates distinct (type, name) pairs when the type contains the
separator: with mentions of keys ("a:b", "c") and ("a", "b:c") the second
shares the joined key "a:b:c" of the first and is merged away, so no
output entity carries the key ("a", "b:c") although a mention with it
exists. -/
theorem claim3_counterexample :
    ((deduplicate_entities
        [⟨"a:b", "c", "d", none, none, ""⟩, ⟨"a", "b:c", "d", none, none, ""⟩]).filter
      (fun x => decide (x.type = "a" ∧ x.name = "b:c"))).length = 0 ∧
    (([⟨"a:b", "c", "d", none, none, ""⟩,
        ⟨"a", "b:c", "d", none, none, ""⟩] : List EntityMention).filter
      (fun x => decide (x.type = "a" ∧ x.name = "b:c"))).length = 1 := by
  decide

/-- C3 amended: provided no mention's type contains the separator
character ':', all mentions sharing a (type, name) key yield exactly one
entity in the dedup output: the first-seen occurrence, with only its id
(drawn from the running counter — output ids are 0,1,2,… in output order,
never replaced) and its description (the first non-empty description among
the colliding mentions in input order, or the first occurrence's when none
is non-empty) set; no other field is modified. -/
theorem claim3_entity_dedup_merge (es : List EntityMention)
    (htype : ∀ e ∈ es, ':' ∉ e.type.data) :
    (deduplicate_entities es).map (fun x => x.id) =
      (List.range (deduplicate_entities es).length).map some ∧
    ∀ t n e₀, e₀ ∈ es → e₀.type = t → e₀.name = n →
      ∃ first rest j,
        es.filter (fun x => decide (x.type = t ∧ x.name = n)) = first :: rest ∧
        (deduplicate_entities es).filter (fun x => decide (x.type = t ∧ x.name = n)) =
          [{ first with id := some j, description := firstTruthyDesc (first :: rest) first.description }] := by
  obtain ⟨hnd, hcons, hid⟩ := entFold_inv es [] (by simp [keysA]) (by simp) (by simp)
  constructor
  · have h1 : (deduplicate_entities es).map (fun x => x.id) =
        (es.foldl entDedupStep []).map (fun p => p.2.id) := by
      unfold deduplicate_entities
      rw [List.map_map]
      rfl
    have h2 : (deduplicate_entities es).length = (es.foldl entDedupStep []).length := by
      unfold deduplicate_entities
      rw [List.length_map]
    rw [h1, h2, hid]
  · intro t n e₀ h₀ ht hn
    have hcolon_t : ':' ∉ t.data := ht ▸ htype e₀ h₀
    have hbridgeP : ∀ e ∈ es, (e.type = t ∧ e.name = n) ↔ entKey e = t ++ ":" ++ n := by
      intro e he
      constructor
      · rintro ⟨h1, h2⟩
        simp only [entKey, h1, h2]
      · intro hkey
        have hd : e.type.data ++ ':' :: e.name.data = t.data ++ ':' :: n.data := by
          have hdd := string_eq_iff_data.mp hkey
          simp only [entKey, String.data_append] at hdd
          simpa using hdd
        obtain ⟨h1, h2⟩ := colon_split (htype e he) hcolon_t hd
        exact ⟨string_eq_iff_data.mpr h1, string_eq_iff_data.mpr h2⟩
    have hbridge : ∀ e ∈ es,
        decide (e.type = t ∧ e.name = n) = decide (entKey e = t ++ ":" ++ n) :=
      fun e he => decide_eq_decide.mpr (hbridgeP e he)
    have hfeq := List.filter_congr hbridge
    cases hgrp : es.filter (fun x => decide (entKey x = t ++ ":" ++ n)) with
    | nil =>
      exfalso
      have hm : e₀ ∈ es.filter (fun x => decide (entKey x = t ++ ":" ++ n)) :=
        List.mem_filter.mpr ⟨h₀, decide_eq_true ((hbridgeP e₀ h₀).mp ⟨ht, hn⟩)⟩
      rw [hgrp] at hm
      simp at hm
    | cons first rest =>
      obtain ⟨j, hlook⟩ := entFold_lookup_first es [] (t ++ ":" ++ n) first rest rfl hgrp
      have hout : (deduplicate_entities es).filter
          (fun v => decide (entKey v = t ++ ":" ++ n)) =
          [entBackfill { first with id := some j } rest] := by
        unfold deduplicate_entities
        rw [filter_values_eq_lookupA entKey _ hcons hnd, hlook]
        rfl
      have hfirstmem : first ∈ es ∧ decide (entKey first = t ++ ":" ++ n) = true := by
        have hm : first ∈ es.filter (fun x => decide (entKey x = t ++ ":" ++ n)) := by
          rw [hgrp]
          exact List.mem_cons_self _ _
        exact List.mem_filter.mp hm
      have hfirsttn : first.type = t ∧ first.name = n :=
        (hbridgeP first hfirstmem.1).mpr (of_decide_eq_true hfirstmem.2)
      have hX : entBackfill { first with id := some j } rest =
          { first with id := some j, description := firstTruthyDesc (first :: rest) first.description } := by
        rw [entBackfill_spec, descTruthy_set_id]
        unfold firstTruthyDesc
        rw [List.filter_cons]
        by_cases hd : descTruthy first = true
        · simp only [if_pos hd]
        · simp only [if_neg hd]
          cases hfil : rest.filter descTruthy with
          | nil => rfl
          | cons d ds => rfl
      have houtT : (deduplicate_entities es).filter
          (fun x => decide (x.type = t ∧ x.name = n)) =
          [entBackfill { first with id := some j } rest] := by
        refine filter_eq_singleton_of_imp ?_ hout ?_
        · intro a ha
          have hh := of_decide_eq_true ha
          exact decide_eq_true (by simp only [entKey, hh.1, hh.2])
        · rw [hX]
          exact decide_eq_true ⟨hfirsttn.1, hfirsttn.2⟩
      exact ⟨first, rest, j, hfeq.trans hgrp, by rw [houtT, hX]⟩

/-- C3 witness: two mentions of 糖尿病 where only the second carries a
description; the theorem applies with all hypotheses discharged on this
input. -/
theorem claim3_entity_dedup_merge_witness :
    (∀ e ∈ ([⟨"疾病", "糖尿病", "d1", none, none, ""⟩,
              ⟨"疾病", "糖尿病", "d2", some "慢性代谢病", none, ""⟩] : List EntityMention),
        ':' ∉ e.type.data) ∧
    (∃ first rest j,
        ([⟨"疾病", "糖尿病", "d1", none, none, ""⟩,
          ⟨"疾病", "糖尿病", "d2", some "慢性代谢病", none, ""⟩] : List EntityMention).filter
          (fun x => decide (x.type = "疾病" ∧ x.name = "糖尿病")) = first :: rest ∧
        (deduplicate_entities
            [⟨"疾病", "糖尿病", "d1", none, none, ""⟩,
             ⟨"疾病", "糖尿病", "d2", some "慢性代谢病", none, ""⟩]).filter
          (fun x => decide (x.type = "疾病" ∧ x.name = "糖尿病")) =
          [{ first with id := some j, description := firstTruthyDesc (first :: rest) first.description }]) :=
  ⟨by decide,
    (claim3_entity_dedup_merge _ (by decide)).2 "疾病" "糖尿病"
      ⟨"疾病", "糖尿病", "d1", none, none, ""⟩ (by decide) rfl rfl⟩

end MedKG

